import Mathlib

/-!
Verification development for the speaker-identity resolution engine of
`cmd/server/internal/audio/diarization/generate_speaker_embeddings.py`.

The Python program is embedded shallowly:
* numpy float vectors become `List ℝ` (real arithmetic; IEEE rounding is not
  modelled, and in the real-valued model every vector component is finite, so
  `np.isfinite` checks that can still fail in the source are modelled by
  `Option` values where the source can actually produce a missing/non-finite
  vector, and are noted in comments where they are vacuous);
* Python dicts (insertion-ordered) become association lists `List (Label × _)`;
* the embedding-extraction model call (`inference(...)`, lines 442-464 of the
  source: exception, unknown result type and non-finite output all `continue`)
  is an opaque parameter `inference : List ℝ → Option (List ℝ)` where `none`
  covers every skipped case;
* the uncaught `KeyError` that `attempt_merge` would raise on
  `existing[None]` is modelled by an `Option` result (`none` = crash);
* `while` loops become fuel-based recursion with provably sufficient fuel.
-/

/-- Vectors of the model: numpy float arrays become lists of reals. -/
abbrev Vec := List ℝ

/-- Componentwise vector addition (`vec_acc += emb * dur`). -/
noncomputable def vadd (a b : Vec) : Vec := List.zipWith (· + ·) a b

/-- Scalar multiple of a vector (`emb * dur`). -/
noncomputable def vscale (c : ℝ) (v : Vec) : Vec := v.map (fun x => c * x)

/-- Division of a vector by a scalar (`vec_acc / total_dur`, `centroid / norm`). -/
noncomputable def vdiv (v : Vec) (c : ℝ) : Vec := v.map (fun x => x / c)

/-- Dot product, `cosine` of the source (line 492): plain `np.dot`. -/
noncomputable def dot (a b : Vec) : ℝ := (List.zipWith (· * ·) a b).sum

/-- Sum of squares of the components; `np.linalg.norm` squared. -/
noncomputable def normSq (v : Vec) : ℝ := (v.map (fun x => x * x)).sum

/-- Euclidean norm, `np.linalg.norm` of the source. -/
noncomputable def vnorm (v : Vec) : ℝ := Real.sqrt (normSq v)

/-- Normalisation step used everywhere in the source
(`if norm > 0: v = v / norm`, e.g. lines 486-488). -/
noncomputable def normalizeV (v : Vec) : Vec :=
  if 0 < vnorm v then vdiv v (vnorm v) else v

theorem normSq_nonneg (v : Vec) : 0 ≤ normSq v := by
  refine List.sum_nonneg ?_
  intro x hx
  rcases List.mem_map.mp hx with ⟨y, _, rfl⟩
  exact mul_self_nonneg y

theorem vnorm_pos_iff (v : Vec) : 0 < vnorm v ↔ 0 < normSq v := by
  constructor
  · intro h
    rcases lt_or_eq_of_le (normSq_nonneg v) with h' | h'
    · exact h'
    · exfalso
      have : vnorm v = 0 := by
        simp [vnorm, ← h', Real.sqrt_zero]
      simp [this] at h
  · intro h
    exact Real.sqrt_pos.mpr h

theorem normSq_vdiv (v : Vec) (c : ℝ) : normSq (vdiv v c) = normSq v / c ^ 2 := by
  induction v with
  | nil => simp [normSq, vdiv]
  | cons x xs ih =>
    simp only [vdiv, List.map_cons, normSq, List.sum_cons] at *
    rw [ih]
    by_cases hc : c = 0
    · simp [hc]
    · field_simp
      ring

/-- Cauchy-Schwarz for the truncating `zipWith` dot product. -/
theorem dot_sq_le (a b : Vec) : (dot a b) ^ 2 ≤ normSq a * normSq b := by
  induction a generalizing b with
  | nil => simp [dot, normSq, mul_nonneg, normSq_nonneg]
  | cons x xs ih =>
    cases b with
    | nil =>
      simp only [dot, List.zipWith_nil_right, List.sum_nil]
      simpa using mul_nonneg (normSq_nonneg (x :: xs)) (normSq_nonneg [])
    | cons y ys =>
      have h := ih ys
      have hA : 0 ≤ normSq xs := normSq_nonneg xs
      have hB : 0 ≤ normSq ys := normSq_nonneg ys
      have hdot : dot (x :: xs) (y :: ys) = x * y + dot xs ys := by
        simp [dot]
      have hnx : normSq (x :: xs) = x * x + normSq xs := by
        simp [normSq]
      have hny : normSq (y :: ys) = y * y + normSq ys := by
        simp [normSq]
      rw [hdot, hnx, hny]
      by_cases hA0 : normSq xs = 0
      · have hS : dot xs ys = 0 := by
          rw [hA0] at h
          nlinarith [sq_nonneg (dot xs ys)]
        rw [hS, hA0]
        nlinarith [sq_nonneg x, sq_nonneg y, mul_nonneg (mul_nonneg (sq_nonneg x) hB) hB]
      · have hApos : 0 < normSq xs := lt_of_le_of_ne hA (Ne.symm hA0)
        have key : (x * y + dot xs ys) ^ 2 * normSq xs ≤
            (x * x + normSq xs) * (y * y + normSq ys) * normSq xs := by
          nlinarith [sq_nonneg (x * dot xs ys - y * normSq xs),
            mul_nonneg (mul_nonneg (sq_nonneg x) hA) hB,
            mul_nonneg (sq_nonneg x) (sub_nonneg.mpr h),
            mul_nonneg hA (sub_nonneg.mpr h)]
        exact le_of_mul_le_mul_right key hApos

theorem neg_one_le_dot (a b : Vec) (ha : normSq a ≤ 1) (hb : normSq b ≤ 1) :
    -1 ≤ dot a b := by
  have h := dot_sq_le a b
  have hA : 0 ≤ normSq a := normSq_nonneg a
  have hB : 0 ≤ normSq b := normSq_nonneg b
  nlinarith [sq_nonneg (dot a b + 1)]

theorem normSq_normalizeV_le_one (v : Vec) (h : normSq v ≤ 1) :
    normSq (normalizeV v) ≤ 1 := by
  unfold normalizeV
  by_cases hp : 0 < vnorm v
  · rw [if_pos hp, normSq_vdiv]
    simp only [vnorm]
    rw [Real.sq_sqrt (normSq_nonneg v)]
    have h0 : 0 < normSq v := (vnorm_pos_iff v).mp hp
    rw [div_self (ne_of_gt h0)]
  · rw [if_neg hp]
    exact h

theorem normSq_normalizeV_eq_one (v : Vec) (h : 0 < normSq v) :
    normSq (normalizeV v) = 1 := by
  unfold normalizeV
  rw [if_pos ((vnorm_pos_iff v).mpr h), normSq_vdiv]
  simp only [vnorm]
  rw [Real.sq_sqrt (normSq_nonneg v), div_self (ne_of_gt h)]

/-! Embedding of `extract_embeddings` (source lines 409-489). -/

/-- Python `int()` applied to a float: truncation toward zero. -/
noncomputable def pyInt (x : ℝ) : ℤ := if x < 0 then -⌊-x⌋ else ⌊x⌋

/-- Python list slicing `w[s:e]` with possibly negative / out-of-range ints. -/
def pySlice (w : List ℝ) (s e : ℤ) : List ℝ :=
  let n : ℤ := w.length
  let s' := if s < 0 then max (n + s) 0 else min s n
  let e' := if e < 0 then max (n + e) 0 else min e n
  (w.take e'.toNat).drop s'.toNat

/-- One per-segment embedding kept in `seg_embeddings` (source lines 475-482;
the `start`/`end`/`rms` metadata fields are not consumed by any modelled code
and are omitted). -/
structure SegEmb where
  embedding : Vec
  raw : Vec
  duration : ℝ

/-- RMS energy of a chunk: `math.sqrt(float(np.mean(chunk**2)))` when the chunk
is nonempty, else `0.0` (source line 437). -/
noncomputable def rmsOf (chunk : List ℝ) : ℝ :=
  if 0 < chunk.length then Real.sqrt ((chunk.map (fun x => x * x)).sum / chunk.length) else 0

/-- The waveform chunk a segment reads, `none` when the segment is skipped by
the index guards (source lines 425-436): `int` truncation of the boundaries,
skip when `e <= s or s >= len(waveform)`, clamp `e`, zero-pad up to
`int(sr * min_seg_dur)` samples, skip when the raw chunk is empty. -/
noncomputable def segChunk (waveform : List ℝ) (sr : ℕ) (minSegDur : ℝ)
    (start stop : ℝ) : Option (List ℝ) :=
  let s := pyInt (start * (sr : ℝ))
  let e := pyInt (stop * (sr : ℝ))
  if e ≤ s ∨ (waveform.length : ℤ) ≤ s then none
  else
    let chunk := pySlice waveform s (min e (waveform.length : ℤ))
    let minReq := pyInt ((sr : ℝ) * minSegDur)
    if (chunk.length : ℤ) < minReq then
      if chunk.length = 0 then none
      else some (chunk ++ List.replicate (minReq - (chunk.length : ℤ)).toNat 0)
    else some chunk

/-- The contribution of one segment of the `extract_embeddings` loop: `none`
when any guard skips it (`dur < min_seg_dur`, the chunk guards, the RMS
guard, or a failed/non-finite inference), otherwise the raw embedding
vector together with the segment duration. -/
noncomputable def segContrib (waveform : List ℝ) (sr : ℕ)
    (inference : List ℝ → Option Vec) (minSegDur minRms : ℝ)
    (seg : ℝ × ℝ) : Option (Vec × ℝ) :=
  let dur := seg.2 - seg.1
  if dur < minSegDur then none
  else
    match segChunk waveform sr minSegDur seg.1 seg.2 with
    | none => none
    | some chunk =>
      if rmsOf chunk < minRms then none
      else
        match inference chunk with
        | none => none
        | some emb => some (emb, dur)

/-- Loop state of `extract_embeddings`: `vec_acc`, `total_dur`,
`seg_embeddings`. -/
structure ExtractState where
  acc : Option Vec
  dur : ℝ
  segs : List SegEmb

/-- One iteration of the `extract_embeddings` loop (source lines 421-482). -/
noncomputable def extractStep (waveform : List ℝ) (sr : ℕ)
    (inference : List ℝ → Option Vec) (minSegDur minRms : ℝ)
    (st : ExtractState) (seg : ℝ × ℝ) : ExtractState :=
  match segContrib waveform sr inference minSegDur minRms seg with
  | none => st
  | some (emb, dur) =>
    { acc := some (match st.acc with
        | none => vscale dur emb
        | some a => vadd a (vscale dur emb)),
      dur := st.dur + dur,
      segs := st.segs ++ [{ embedding := normalizeV emb, raw := emb, duration := dur }] }

/-- The whole `extract_embeddings` loop. -/
noncomputable def extractFold (waveform : List ℝ) (sr : ℕ)
    (inference : List ℝ → Option Vec) (minSegDur minRms : ℝ)
    (segs : List (ℝ × ℝ)) : ExtractState :=
  segs.foldl (extractStep waveform sr inference minSegDur minRms) ⟨none, 0, []⟩

/-- `extract_embeddings` (source lines 409-489): returns
`(centroid | None, total_dur, seg_embeddings)`. -/
noncomputable def extractEmbeddings (waveform : List ℝ) (sr : ℕ)
    (inference : List ℝ → Option Vec) (minSegDur minRms : ℝ)
    (segs : List (ℝ × ℝ)) : Option Vec × ℝ × List SegEmb :=
  let st := extractFold waveform sr inference minSegDur minRms segs
  match st.acc with
  | none => (none, 0, [])
  | some acc =>
    if st.dur = 0 then (none, 0, [])
    else (some (normalizeV (vdiv acc st.dur)), st.dur, st.segs)

theorem extractFold_acc_eq_none (W : List ℝ) (sr : ℕ) (inf : List ℝ → Option Vec)
    (a b : ℝ) (segs : List (ℝ × ℝ)) (st : ExtractState) :
    ((segs.foldl (extractStep W sr inf a b) st).acc = none) ↔
      (st.acc = none ∧ segs.filterMap (segContrib W sr inf a b) = []) := by
  induction segs generalizing st with
  | nil => simp
  | cons s rest ih =>
    simp only [List.foldl_cons, List.filterMap_cons]
    cases hc : segContrib W sr inf a b s with
    | none => simp [extractStep, hc, ih]
    | some p =>
      obtain ⟨emb, dur⟩ := p
      simp [extractStep, hc, ih]

theorem extractFold_dur_eq (W : List ℝ) (sr : ℕ) (inf : List ℝ → Option Vec)
    (a b : ℝ) (segs : List (ℝ × ℝ)) (st : ExtractState) :
    (segs.foldl (extractStep W sr inf a b) st).dur =
      st.dur + ((segs.filterMap (segContrib W sr inf a b)).map Prod.snd).sum := by
  induction segs generalizing st with
  | nil => simp
  | cons s rest ih =>
    simp only [List.foldl_cons, List.filterMap_cons]
    cases hc : segContrib W sr inf a b s with
    | none => simp [extractStep, hc, ih]
    | some p =>
      obtain ⟨emb, dur⟩ := p
      simp only [extractStep, hc, ih, List.map_cons, List.sum_cons]
      ring

theorem normalizeV_of_normSq_eq_zero (v : Vec) (h : normSq v = 0) :
    normalizeV v = v := by
  unfold normalizeV
  rw [if_neg]
  intro hp
  exact absurd ((vnorm_pos_iff v).mp hp) (by rw [h]; exact lt_irrefl 0)

/-- C1, amended. For `extract_embeddings`: the centroid is absent exactly when
no segment passed the validity guards or the summed duration of the passing
segments is zero; when a centroid is returned, it has unit norm whenever the
duration-weighted raw-vector accumulator is nonzero, but when the weighted
raw vectors cancel to the zero vector the returned centroid is the zero
vector (norm 0), not a unit vector. -/
theorem C1_centroid_norm (W : List ℝ) (sr : ℕ) (inf : List ℝ → Option Vec)
    (a b : ℝ) (segs : List (ℝ × ℝ)) :
    ((extractEmbeddings W sr inf a b segs).1 = none ↔
      (segs.filterMap (segContrib W sr inf a b) = [] ∨
        ((segs.filterMap (segContrib W sr inf a b)).map Prod.snd).sum = 0)) ∧
    (∀ v acc, (extractEmbeddings W sr inf a b segs).1 = some v →
      (extractFold W sr inf a b segs).acc = some acc →
      (0 < normSq acc → normSq v = 1) ∧ (normSq acc = 0 → normSq v = 0)) := by
  have hdur : (extractFold W sr inf a b segs).dur =
      ((segs.filterMap (segContrib W sr inf a b)).map Prod.snd).sum := by
    have h := extractFold_dur_eq W sr inf a b segs ⟨none, 0, []⟩
    simpa [extractFold] using h
  have hacc := extractFold_acc_eq_none W sr inf a b segs ⟨none, 0, []⟩
  simp only [extractFold] at hacc ⊢
  constructor
  · cases hA : (List.foldl (extractStep W sr inf a b) ⟨none, 0, []⟩ segs).acc with
    | none =>
      have hfm : segs.filterMap (segContrib W sr inf a b) = [] := ((hacc.mp) hA).2
      simp [extractEmbeddings, extractFold, hA, hfm]
    | some acc =>
      have hfm : ¬ segs.filterMap (segContrib W sr inf a b) = [] := by
        intro hh
        have : (List.foldl (extractStep W sr inf a b) ⟨none, 0, []⟩ segs).acc = none :=
          hacc.mpr ⟨trivial, hh⟩
        rw [hA] at this
        exact Option.noConfusion this
      by_cases hd : (List.foldl (extractStep W sr inf a b) ⟨none, 0, []⟩ segs).dur = 0
      · have hsum : ((segs.filterMap (segContrib W sr inf a b)).map Prod.snd).sum = 0 := by
          rw [← hdur]
          simpa [extractFold] using hd
        simp [extractEmbeddings, extractFold, hA, hd, hsum]
      · have hsum : ¬ ((segs.filterMap (segContrib W sr inf a b)).map Prod.snd).sum = 0 := by
          rw [← hdur]
          simpa [extractFold] using hd
        simp [extractEmbeddings, extractFold, hA, hd, hsum, hfm]
  · intro v acc hv hA
    simp only [extractEmbeddings, extractFold, hA] at hv
    by_cases hd : (List.foldl (extractStep W sr inf a b) ⟨none, 0, []⟩ segs).dur = 0
    · simp [hd] at hv
    · simp only [hd, if_false] at hv
      have hveq : v = normalizeV (vdiv acc (List.foldl (extractStep W sr inf a b) ⟨none, 0, []⟩ segs).dur) := by
        exact (Option.some.injEq _ _ ▸ hv).symm
      constructor
      · intro hpos
        rw [hveq]
        apply normSq_normalizeV_eq_one
        rw [normSq_vdiv]
        have : (0:ℝ) < (List.foldl (extractStep W sr inf a b) ⟨none, 0, []⟩ segs).dur ^ 2 := by
          positivity
        exact div_pos hpos this
      · intro hzero
        rw [hveq]
        have h0 : normSq (vdiv acc (List.foldl (extractStep W sr inf a b) ⟨none, 0, []⟩ segs).dur) = 0 := by
          rw [normSq_vdiv, hzero, zero_div]
        rw [normalizeV_of_normSq_eq_zero _ h0, h0]

/-- Concrete waveform used for self-contained runs of the extraction loop. -/
noncomputable def exW : List ℝ := [1, 1, 1]

/-- Concrete inference function: unit vector for the first (length-1) chunk,
an opposing half-length vector for the longer chunk, so that the weighted
accumulator cancels exactly. -/
noncomputable def exInfC : List ℝ → Option Vec :=
  fun c => if c.length = 1 then some [1, 0] else some [-(1/2), 0]

theorem exContribA : segContrib exW 1 exInfC 0 0 (0, 1) = some ([1, 0], 1) := by
  norm_num [segContrib, segChunk, pySlice, pyInt, rmsOf, exW, exInfC, Real.sqrt_one]

theorem exContribB : segContrib exW 1 exInfC 0 0 (1, 3) = some ([-(1/2), 0], 2) := by
  have h3 : (3 : ℤ).toNat = 3 := rfl
  norm_num [segContrib, segChunk, pySlice, pyInt, rmsOf, exW, exInfC, Real.sqrt_one, h3]

theorem exFoldC :
    (extractFold exW 1 exInfC 0 0 [(0, 1), (1, 3)]).acc = some [0, 0] ∧
    (extractFold exW 1 exInfC 0 0 [(0, 1), (1, 3)]).dur = 3 := by
  simp only [extractFold, List.foldl_cons, List.foldl_nil, extractStep, exContribA, exContribB]
  norm_num [vadd, vscale]

/-- Counterexample to C1 as stated: a profile built from two valid segments
(finite raw vectors, total accumulated duration 3 > 0) whose duration-weighted
raw vectors cancel exactly; the profile builder returns a present centroid
equal to the zero vector, whose L2 norm 0 is not within 1e-6 of 1. -/
theorem C1_counterexample :
    (extractEmbeddings exW 1 exInfC 0 0 [(0, 1), (1, 3)]).1 = some [0, 0] ∧
    (extractEmbeddings exW 1 exInfC 0 0 [(0, 1), (1, 3)]).2.1 = 3 ∧
    ([(0, 1), (1, 3)] : List (ℝ × ℝ)).filterMap (segContrib exW 1 exInfC 0 0) =
      [([1, 0], 1), ([-(1/2), 0], 2)] ∧
    vnorm [0, 0] = 0 ∧ ¬ |vnorm ([0, 0] : Vec) - 1| ≤ 1e-6 := by
  have hnz : normalizeV ([0, 0] : Vec) = [0, 0] := by
    apply normalizeV_of_normSq_eq_zero
    norm_num [normSq]
  have hn0 : vnorm ([0, 0] : Vec) = 0 := by
    simp [vnorm, normSq, Real.sqrt_zero]
  refine ⟨?_, ?_, ?_, hn0, ?_⟩
  · simp only [extractEmbeddings, exFoldC.1, exFoldC.2]
    norm_num [vdiv, hnz]
  · simp only [extractEmbeddings, exFoldC.1, exFoldC.2]
    norm_num
  · simp [exContribA, exContribB]
  · rw [hn0]
    norm_num

/-- Constant inference function returning a fixed unit vector. -/
noncomputable def exInfU : List ℝ → Option Vec := fun _ => some [1, 0]

theorem exContribU : segContrib exW 1 exInfU 0 0 (0, 1) = some ([1, 0], 1) := by
  norm_num [segContrib, segChunk, pySlice, pyInt, rmsOf, exW, exInfU, Real.sqrt_one]

theorem exFoldU :
    (extractFold exW 1 exInfU 0 0 [(0, 1)]).acc = some [1, 0] ∧
    (extractFold exW 1 exInfU 0 0 [(0, 1)]).dur = 1 := by
  simp only [extractFold, List.foldl_cons, List.foldl_nil, extractStep, exContribU]
  norm_num [vscale]

/-- Witness for C1 (amended): a concrete single-segment profile whose
accumulator is the nonzero vector `[1, 0]`; the theorem yields a present
centroid of unit norm. -/
theorem C1_witness :
    ∃ v, (extractEmbeddings exW 1 exInfU 0 0 [(0, 1)]).1 = some v ∧ normSq v = 1 := by
  have hv : (extractEmbeddings exW 1 exInfU 0 0 [(0, 1)]).1 =
      some (normalizeV (vdiv [1, 0] (extractFold exW 1 exInfU 0 0 [(0, 1)]).dur)) := by
    simp only [extractEmbeddings, exFoldU.1, exFoldU.2]
    norm_num
  refine ⟨_, hv, ?_⟩
  exact ((C1_centroid_norm exW 1 exInfU 0 0 [(0, 1)]).2 _ [1, 0] hv exFoldU.1).1
    (by norm_num [normSq])

/-! Embedding of the identity matcher (source lines 492-850). -/

/-- Speaker labels: Python strings, modelled as their character lists. -/
abbrev Label := List Char

/-- Association-list lookup: Python `dict[key]` / `key in dict` on an
insertion-ordered dict. -/
def alookup {α : Type} : List (Label × α) → Label → Option α
  | [], _ => none
  | (k', v) :: rest, k => if k' = k then some v else alookup rest k

/-- One `existing` registry entry: `{"embedding": ..., "duration": ...}`. -/
structure GEntry where
  embedding : Vec
  duration : ℝ

/-- One `new_profiles` entry: `{"embedding", "duration", "segments"}`. The
embedding is an `Option` so that the `centroid is None or not
np.all(np.isfinite(centroid))` guards of the source stay representable. -/
structure Profile where
  embedding : Option Vec
  duration : ℝ
  segments : List SegEmb

abbrev Registry := List (Label × GEntry)

abbrev ProfileList := List (Label × Profile)

/-- Matcher state: the mutable `existing` dict and the `mapping` dict. -/
structure MState where
  existing : Registry
  mapping : List (Label × Label)

/-- `match_existing` (source lines 496-504): best label and best similarity,
starting from `(None, -2.0)`, strictly improving, first maximum wins. -/
noncomputable def meStep (c : Vec) (best : Option Label × ℝ) (e : Label × GEntry) :
    Option Label × ℝ :=
  if dot c e.2.embedding > best.2 then (some e.1, dot c e.2.embedding) else best

noncomputable def matchExisting (c : Vec) (existing : Registry) : Option Label × ℝ :=
  existing.foldl (meStep c) (none, -2)

/-- The body of `attempt_merge` for a single profile (source lines 815-836).
The result is `none` when the source would raise an uncaught `KeyError`
(`existing[best_label]` with `best_label = None`, reachable only when every
similarity is at most the `-2.0` sentinel). -/
noncomputable def processProfile (thr : ℝ) (st : MState) (p : Label × Profile) :
    Option MState :=
  if (alookup st.mapping p.1).isSome then some st
  else
    match p.2.embedding with
    | none => some st
    | some c =>
      if st.existing.isEmpty then some st
      else
        let best := matchExisting c st.existing
        if best.2 ≥ thr then
          match best.1 with
          | none => none
          | some bl =>
            match alookup st.existing bl with
            | none => none
            | some old =>
              let st1 :=
                if old.duration + p.2.duration > 0 then
                  { st with existing := st.existing.map (fun e =>
                      if e.1 = bl then
                        (e.1, ⟨normalizeV (vdiv (vadd (vscale old.duration old.embedding)
                            (vscale p.2.duration c)) (old.duration + p.2.duration)),
                          old.duration + p.2.duration⟩)
                      else e) }
                else st
              some { st1 with mapping := st1.mapping ++ [(p.1, bl)] }
        else some st

/-- `attempt_merge` (source lines 813-837): fold over all profiles in dict
order, skipping already-mapped ones inside `processProfile`. -/
noncomputable def attemptMerge (thr : ℝ) (profiles : ProfileList) (st : MState) :
    Option MState :=
  match profiles with
  | [] => some st
  | p :: rest =>
    match processProfile thr st p with
    | none => none
    | some st' => attemptMerge thr rest st'

/-- The matched-anything test of the source
(`any(v in existing for v in mapping.values())`, lines 843-847). -/
def hasMatch (st : MState) : Bool :=
  st.mapping.any (fun pr => (alookup st.existing pr.2).isSome)

/-- The auto-lower-threshold `while` loop (source lines 844-850), as
fuel-based recursion: `cur` is the candidate threshold, `reported` the
threshold variable that is overwritten on the first successful retry. -/
noncomputable def autoLowerLoop (profiles : ProfileList) (minThr step : ℝ) :
    ℕ → ℝ → ℝ → MState → Option (MState × ℝ)
  | 0, _, reported, st => some (st, reported)
  | fuel + 1, cur, reported, st =>
    if cur ≥ minThr ∧ hasMatch st = false then
      match attemptMerge cur profiles st with
      | none => none
      | some st' =>
        if hasMatch st' then some (st', cur)
        else autoLowerLoop profiles minThr step fuel (cur - step) reported st'
    else some (st, reported)

/-- Fuel that dominates the number of iterations of the auto-lower loop.
When `step ≤ 0` the source loop would never terminate (absent a match), a
behaviour outside the model; the fuel is then `0`. -/
noncomputable def autoFuel (thr minThr step : ℝ) : ℕ :=
  if 0 < step then (⌈(thr - minThr) / step⌉).toNat + 1 else 0

/-- The matching phase of `main` (source lines 839-850): first pass at the
user threshold, then the conditional auto-lower retries; returns the final
state and the reported effective threshold. -/
noncomputable def runMatch (auto : Bool) (thr minThr step : ℝ)
    (profiles : ProfileList) (st : MState) : Option (MState × ℝ) :=
  match attemptMerge thr profiles st with
  | none => none
  | some st1 =>
    if auto = true ∧ st1.existing.isEmpty = false ∧ hasMatch st1 = false then
      autoLowerLoop profiles minThr step (autoFuel thr minThr step) (thr - step) thr st1
    else some (st1, thr)

theorem alookup_isSome_iff {α : Type} (l : List (Label × α)) (k : Label) :
    (alookup l k).isSome = true ↔ k ∈ l.map Prod.fst := by
  induction l with
  | nil => simp [alookup]
  | cons e rest ih =>
    simp only [alookup, List.map_cons, List.mem_cons]
    by_cases h : e.1 = k
    · rw [if_pos h]
      exact iff_of_true rfl (Or.inl h.symm)
    · rw [if_neg h, ih]
      constructor
      · exact fun hm => Or.inr hm
      · rintro (h1 | h2)
        · exact absurd h1.symm h
        · exact h2

theorem alookup_append_of_eq_none {α : Type} (l l₂ : List (Label × α)) (k : Label)
    (h : alookup l k = none) : alookup (l ++ l₂) k = alookup l₂ k := by
  induction l with
  | nil => simp
  | cons e rest ih =>
    simp only [alookup] at h
    simp only [List.cons_append, alookup]
    by_cases he : e.1 = k
    · rw [if_pos he] at h
      exact Option.noConfusion h
    · rw [if_neg he] at h ⊢
      exact ih h

theorem meFold_snd_ge_init (c : Vec) (l : Registry) (b : Option Label × ℝ) :
    b.2 ≤ (l.foldl (meStep c) b).2 := by
  induction l generalizing b with
  | nil => exact le_rfl
  | cons e rest ih =>
    refine le_trans ?_ (ih (meStep c b e))
    unfold meStep
    by_cases h : dot c e.2.embedding > b.2
    · rw [if_pos h]
      exact le_of_lt h
    · rw [if_neg h]

theorem meFold_snd_ge_mem (c : Vec) (e : Label × GEntry) (l : Registry) :
    ∀ b : Option Label × ℝ, e ∈ l → dot c e.2.embedding ≤ (l.foldl (meStep c) b).2 := by
  induction l with
  | nil =>
    intro b he
    cases he
  | cons f rest ih =>
    intro b he
    rcases List.mem_cons.mp he with h | h
    · subst h
      refine le_trans ?_ (meFold_snd_ge_init c rest (meStep c b e))
      unfold meStep
      by_cases hgt : dot c e.2.embedding > b.2
      · rw [if_pos hgt]
      · rw [if_neg hgt]
        exact le_of_not_lt hgt
    · exact ih (meStep c b f) h

theorem meFold_fst_isSome_mono (c : Vec) (l : Registry) :
    ∀ b : Option Label × ℝ, b.1.isSome = true → (l.foldl (meStep c) b).1.isSome = true := by
  induction l with
  | nil =>
    intro b hb
    simpa using hb
  | cons e rest ih =>
    intro b hb
    refine ih (meStep c b e) ?_
    unfold meStep
    by_cases h : dot c e.2.embedding > b.2
    · rw [if_pos h]
      rfl
    · rwa [if_neg h]

theorem meFold_fst_none_eq (c : Vec) (l : Registry) :
    ∀ b : Option Label × ℝ, (l.foldl (meStep c) b).1 = none → l.foldl (meStep c) b = b := by
  induction l with
  | nil =>
    intro b _
    rfl
  | cons e rest ih =>
    intro b h
    by_cases hgt : dot c e.2.embedding > b.2
    · exfalso
      have hs : (meStep c b e).1.isSome = true := by
        unfold meStep
        rw [if_pos hgt]
        rfl
      have hmono := meFold_fst_isSome_mono c rest (meStep c b e) hs
      simp only [List.foldl_cons] at h
      rw [h] at hmono
      exact Bool.noConfusion hmono
    · have hstep : meStep c b e = b := by
        unfold meStep
        rw [if_neg hgt]
      simp only [List.foldl_cons, hstep] at h ⊢
      exact ih b h

theorem meFold_fst_mem (c : Vec) (l : Registry) :
    ∀ (b : Option Label × ℝ) (bl : Label), (l.foldl (meStep c) b).1 = some bl →
      b.1 = some bl ∨ bl ∈ l.map Prod.fst := by
  induction l with
  | nil =>
    intro b bl h
    exact Or.inl h
  | cons e rest ih =>
    intro b bl h
    simp only [List.foldl_cons] at h
    rcases ih (meStep c b e) bl h with h' | h'
    · unfold meStep at h'
      by_cases hgt : dot c e.2.embedding > b.2
      · rw [if_pos hgt] at h'
        have he1 : e.1 = bl := Option.some.inj h'
        right
        rw [List.map_cons, ← he1]
        exact List.mem_cons_self _ _
      · rw [if_neg hgt] at h'
        exact Or.inl h'
    · right
      rw [List.map_cons]
      exact List.mem_cons_of_mem _ h'

/-- If some registry entry has similarity above the `-2.0` sentinel, the best
label returned by `match_existing` is not `None` and names a registry key. -/
theorem matchExisting_fst_some (c : Vec) (existing : Registry) (e : Label × GEntry)
    (he : e ∈ existing) (hgt : -2 < dot c e.2.embedding) :
    ∃ bl, (matchExisting c existing).1 = some bl ∧ bl ∈ existing.map Prod.fst := by
  have hge := meFold_snd_ge_mem c e existing (none, -2) he
  cases hbl : (matchExisting c existing).1 with
  | none =>
    exfalso
    have heq := meFold_fst_none_eq c existing (none, -2) hbl
    unfold matchExisting at heq hge
    rw [heq] at hge
    exact absurd (lt_of_lt_of_le hgt hge) (lt_irrefl _)
  | some bl =>
    rcases meFold_fst_mem c existing (none, -2) bl hbl with h | h
    · exact Option.noConfusion h
    · exact ⟨bl, rfl, h⟩

/-- C2: matching is boundary-inclusive. When a profile is processed by
`attempt_merge` and its best similarity against the current registry is
exactly the threshold, the `>=` comparison (source line 824) matches it: the
local label is mapped to the best registry label. The sub-unit-norm
hypotheses hold for every state the program reaches (registry entries are
normalised on load or on update, centroids are normalised or zero) and rule
out the `-2.0` sentinel. -/
theorem C2_boundary_inclusive (thr : ℝ) (st : MState) (spk : Label) (prof : Profile)
    (c : Vec)
    (hm : alookup st.mapping spk = none)
    (hc : prof.embedding = some c)
    (hne : st.existing.isEmpty = false)
    (hsub : ∀ e ∈ st.existing, normSq e.2.embedding ≤ 1)
    (hcsub : normSq c ≤ 1)
    (heq : (matchExisting c st.existing).2 = thr) :
    ∃ st' bl, processProfile thr st (spk, prof) = some st' ∧
      (matchExisting c st.existing).1 = some bl ∧
      alookup st'.mapping spk = some bl := by
  obtain ⟨e, rest, hex⟩ : ∃ e rest, st.existing = e :: rest := by
    cases hx : st.existing with
    | nil =>
      rw [hx] at hne
      exact absurd hne (by simp)
    | cons e rest => exact ⟨e, rest, rfl⟩
  have hemem : e ∈ st.existing := by
    rw [hex]
    exact List.mem_cons_self _ _
  have hdotge : -2 < dot c e.2.embedding :=
    lt_of_lt_of_le (by norm_num) (neg_one_le_dot c e.2.embedding hcsub (hsub e hemem))
  obtain ⟨bl, hbl, hmem⟩ := matchExisting_fst_some c st.existing e hemem hdotge
  obtain ⟨old, hold⟩ :=
    Option.isSome_iff_exists.mp ((alookup_isSome_iff st.existing bl).mpr hmem)
  have hmap : alookup (st.mapping ++ [(spk, bl)]) spk = some bl := by
    rw [alookup_append_of_eq_none _ _ _ hm]
    simp [alookup]
  by_cases hdur : old.duration + prof.duration > 0
  · refine ⟨⟨st.existing.map (fun e2 =>
        if e2.1 = bl then
          (e2.1, ⟨normalizeV (vdiv (vadd (vscale old.duration old.embedding)
              (vscale prof.duration c)) (old.duration + prof.duration)),
            old.duration + prof.duration⟩)
        else e2), st.mapping ++ [(spk, bl)]⟩, bl, ?_, hbl, hmap⟩
    simp only [processProfile, hm, Option.isSome_none, Bool.false_eq_true, if_false, hc,
      hne, hbl, hold]
    rw [heq]
    simp only [ge_iff_le, le_refl, if_true, hdur, if_pos hdur]
  · refine ⟨⟨st.existing, st.mapping ++ [(spk, bl)]⟩, bl, ?_, hbl, hmap⟩
    simp only [processProfile, hm, Option.isSome_none, Bool.false_eq_true, if_false, hc,
      hne, hbl, hold]
    rw [heq]
    simp only [ge_iff_le, le_refl, if_true, hdur, if_neg hdur]
    simp

/-- Witness for C2: registry with `SPK00 = ([1,0], 10)`, a profile with
centroid `[3/5, 4/5]` (similarity exactly `3/5`) and threshold `3/5`. -/
theorem C2_witness :
    ∃ st' bl,
      processProfile (3/5) ⟨[(['S','P','K','0','0'], ⟨[1, 0], 10⟩)], []⟩
        (['F','0'], ⟨some [3/5, 4/5], 10, []⟩) = some st' ∧
      (matchExisting [3/5, 4/5] [(['S','P','K','0','0'], ⟨[1, 0], 10⟩)]).1 = some bl ∧
      alookup st'.mapping ['F','0'] = some bl := by
  refine C2_boundary_inclusive (3/5) ⟨[(['S','P','K','0','0'], ⟨[1, 0], 10⟩)], []⟩
    ['F','0'] ⟨some [3/5, 4/5], 10, []⟩ [3/5, 4/5] rfl rfl rfl ?_ ?_ ?_
  · intro e he
    simp only [List.mem_singleton] at he
    rw [he]
    norm_num [normSq]
  · norm_num [normSq]
  · norm_num [matchExisting, meStep, dot]

/-- C10: when a profile matches an existing entry (best similarity at least
the threshold) but the stored duration plus the profile duration is zero, the
weighted merge is skipped (guard `old_dur + new_dur > 0`, source line 828)
while the mapping still records the match: the registry is returned
unchanged and the local label is mapped to the matched global label. -/
theorem C10_zero_weight_match (thr : ℝ) (st : MState) (spk : Label) (prof : Profile)
    (c : Vec) (bl : Label) (old : GEntry)
    (hm : alookup st.mapping spk = none)
    (hc : prof.embedding = some c)
    (hne : st.existing.isEmpty = false)
    (hbl : (matchExisting c st.existing).1 = some bl)
    (hthr : (matchExisting c st.existing).2 ≥ thr)
    (hold : alookup st.existing bl = some old)
    (hzero : old.duration + prof.duration = 0) :
    processProfile thr st (spk, prof) =
      some ⟨st.existing, st.mapping ++ [(spk, bl)]⟩ := by
  have hdur : ¬ old.duration + prof.duration > 0 := by
    rw [hzero]
    exact lt_irrefl 0
  simp only [processProfile, hm, Option.isSome_none, Bool.false_eq_true, if_false, hc,
    hne, hbl, hold, ge_iff_le, hthr, if_pos hthr, if_neg hdur]
  simp

/-- Witness for C10: registry entry `SPK00 = ([1,0], 0)` and a matching
profile of duration `0`; the entry is untouched and the mapping records the
match. -/
theorem C10_witness :
    processProfile (1/2) ⟨[(['S','P','K','0','0'], ⟨[1, 0], 0⟩)], []⟩
      (['F','0'], ⟨some [1, 0], 0, []⟩) =
      some ⟨[(['S','P','K','0','0'], ⟨[1, 0], 0⟩)],
        [(['F','0'], ['S','P','K','0','0'])]⟩ := by
  refine C10_zero_weight_match (1/2) ⟨[(['S','P','K','0','0'], ⟨[1, 0], 0⟩)], []⟩
    ['F','0'] ⟨some [1, 0], 0, []⟩ [1, 0] ['S','P','K','0','0'] ⟨[1, 0], 0⟩
    rfl rfl rfl ?_ ?_ ?_ ?_
  · norm_num [matchExisting, meStep, dot]
  · norm_num [matchExisting, meStep, dot]
  · simp [alookup]
  · norm_num

/-! Global-label bookkeeping (source lines 804-808 and 870-882). -/

/-- ASCII decimal digit test, `str.isdigit()` restricted to ASCII. -/
def isDigitChar (c : Char) : Bool := decide ('0' ≤ c) && decide (c ≤ '9')

/-- Parse `lbl[3:]` when `lbl.startswith("SPK") and lbl[3:].isdigit()`
(source line 807), returning the numeric suffix. -/
def parseSuffix (l : Label) : Option ℕ :=
  if l.take 3 = ['S', 'P', 'K'] ∧ l.drop 3 ≠ [] ∧ (l.drop 3).all isDigitChar then
    some ((l.drop 3).foldl (fun n c => 10 * n + (c.toNat - 48)) 0)
  else none

/-- `max_index` computation (source lines 805-808), starting from `-1`. -/
def maxIndexOf (existing : Registry) : ℤ :=
  existing.foldl
    (fun m e =>
      match parseSuffix e.1 with
      | some n => max m (n : ℤ)
      | none => m)
    (-1)

/-- Decimal digits of a natural number, most significant first. -/
def natDigits (n : ℕ) : List Char :=
  if h : n < 10 then [Char.ofNat (48 + n)]
  else natDigits (n / 10) ++ [Char.ofNat (48 + n % 10)]
decreasing_by exact Nat.div_lt_self (by omega) (by omega)

/-- `f"SPK{idx:02d}"` (source line 877). The pipeline only ever formats
`max_index + 1 ≥ 0`, so only the `toNat` image matters. -/
def mkLabel (idx : ℤ) : Label :=
  ['S', 'P', 'K'] ++ (if idx.toNat < 10 then '0' :: natDigits idx.toNat else natDigits idx.toNat)

/-- New-label creation for unmatched profiles (source lines 870-882): skip
mapped or invalid-centroid profiles, then increment the index, format the
label and insert the profile centroid/duration into the registry. -/
noncomputable def createNewStep (st : MState) (maxIdx : ℤ) (p : Label × Profile) :
    MState × ℤ :=
  if (alookup st.mapping p.1).isSome then (st, maxIdx)
  else
    match p.2.embedding with
    | none => (st, maxIdx)
    | some c =>
      (⟨st.existing ++ [(mkLabel (maxIdx + 1), ⟨c, p.2.duration⟩)],
        st.mapping ++ [(p.1, mkLabel (maxIdx + 1))]⟩, maxIdx + 1)

noncomputable def createNew (profiles : ProfileList) (st : MState) (maxIdx : ℤ) :
    MState × ℤ :=
  profiles.foldl (fun acc p => createNewStep acc.1 acc.2 p) (st, maxIdx)

/-- The matcher phase of `main` (source lines 839-882): `max_index` from the
prior registry, the threshold passes with auto-lowering, then new-label
creation; returns the final state, the reported threshold and the final
index. -/
noncomputable def matchPipeline (auto : Bool) (thr minThr step : ℝ)
    (profiles : ProfileList) (existing0 : Registry) : Option (MState × ℝ × ℤ) :=
  match runMatch auto thr minThr step profiles ⟨existing0, []⟩ with
  | none => none
  | some (st1, effThr) =>
    let r := createNew profiles st1 (maxIndexOf existing0)
    some (r.1, effThr, r.2)

theorem processProfile_step (thr : ℝ) (st : MState) (p : Label × Profile) (st' : MState)
    (h : processProfile thr st p = some st') :
    st'.existing.map Prod.fst = st.existing.map Prod.fst ∧
    (st' = st ∨ ∃ bl, bl ∈ st.existing.map Prod.fst ∧
      st'.mapping = st.mapping ++ [(p.1, bl)]) := by
  simp only [processProfile] at h
  split at h
  · cases h
    exact ⟨rfl, Or.inl rfl⟩
  · split at h
    · cases h
      exact ⟨rfl, Or.inl rfl⟩
    · rename_i c hc
      split at h
      · cases h
        exact ⟨rfl, Or.inl rfl⟩
      · split at h
        · rename_i hge
          split at h
          · exact Option.noConfusion h
          · rename_i bl hbl
            split at h
            · exact Option.noConfusion h
            · rename_i old hold
              have hmem : bl ∈ st.existing.map Prod.fst := by
                rcases meFold_fst_mem c st.existing (none, -2) bl hbl with h' | h'
                · exact Option.noConfusion h'
                · exact h'
              cases h
              constructor
              · by_cases hdur : old.duration + p.2.duration > 0
                · simp only [if_pos hdur, List.map_map]
                  refine List.map_congr_left ?_
                  intro e _
                  by_cases he : e.1 = bl <;> simp [he]
                · simp only [if_neg hdur]
              · right
                refine ⟨bl, hmem, ?_⟩
                by_cases hdur : old.duration + p.2.duration > 0
                · simp only [if_pos hdur]
                · simp only [if_neg hdur]
        · cases h
          exact ⟨rfl, Or.inl rfl⟩

theorem attemptMerge_props (thr : ℝ) (profiles : ProfileList) :
    ∀ st st' : MState, attemptMerge thr profiles st = some st' →
      st'.existing.map Prod.fst = st.existing.map Prod.fst ∧
      (∃ l2, st'.mapping = st.mapping ++ l2 ∧
        ∀ pr ∈ l2, pr.2 ∈ st.existing.map Prod.fst) ∧
      (st' = st ∨ st.mapping.length < st'.mapping.length) := by
  induction profiles with
  | nil =>
    intro st st' h
    cases h
    exact ⟨rfl, ⟨[], by simp, by intro pr hpr; cases hpr⟩, Or.inl rfl⟩
  | cons p rest ih =>
    intro st st' h
    simp only [attemptMerge] at h
    cases hp : processProfile thr st p with
    | none =>
      rw [hp] at h
      exact Option.noConfusion h
    | some st1 =>
      rw [hp] at h
      obtain ⟨hk1, hm1⟩ := processProfile_step thr st p st1 hp
      obtain ⟨hk2, ⟨l2, hm2, hl2⟩, hlen2⟩ := ih st1 st' h
      refine ⟨hk2.trans hk1, ?_, ?_⟩
      · rcases hm1 with heq | ⟨bl, hbl, hmap⟩
        · subst heq
          exact ⟨l2, hm2, fun pr hpr => hl2 pr hpr⟩
        · refine ⟨(p.1, bl) :: l2, ?_, ?_⟩
          · rw [hm2, hmap, List.append_assoc]
            rfl
          · intro pr hpr
            rcases List.mem_cons.mp hpr with h' | h'
            · rw [h']
              exact hbl
            · rw [← hk1]
              exact hl2 pr h'
      · rcases hm1 with heq | ⟨bl, hbl, hmap⟩
        · subst heq
          exact hlen2
        · right
          have h1 : st.mapping.length < st1.mapping.length := by
            rw [hmap]
            simp
          have h2 : st1.mapping.length ≤ st'.mapping.length := by
            rw [hm2]
            simp
          exact lt_of_lt_of_le h1 h2

theorem hasMatch_of_pair (st : MState) (pr : Label × Label) (hmem : pr ∈ st.mapping)
    (hk : pr.2 ∈ st.existing.map Prod.fst) : hasMatch st = true := by
  refine List.any_eq_true.mpr ⟨pr, hmem, ?_⟩
  exact (alookup_isSome_iff st.existing pr.2).mpr hk

/-- A pass of `attempt_merge` that produces no match leaves the state
literally unchanged (the registry is only updated together with a mapping
insertion, and any mapping insertion makes `hasMatch` true). -/
theorem attemptMerge_no_match (thr : ℝ) (profiles : ProfileList) (st st' : MState)
    (h : attemptMerge thr profiles st = some st') (hnm : hasMatch st' = false) :
    st' = st := by
  obtain ⟨hk, ⟨l2, hm, hl2⟩, hlen⟩ := attemptMerge_props thr profiles st st' h
  cases l2 with
  | nil =>
    rcases hlen with heq | hlt
    · exact heq
    · exfalso
      rw [hm] at hlt
      simp at hlt
  | cons pr l2' =>
    exfalso
    have hmem : pr ∈ st'.mapping := by
      rw [hm]
      exact List.mem_append_right _ (List.mem_cons_self _ _)
    have hk2 : pr.2 ∈ st'.existing.map Prod.fst := by
      rw [hk]
      exact hl2 pr (List.mem_cons_self _ _)
    rw [hasMatch_of_pair st' pr hmem hk2] at hnm
    exact Bool.noConfusion hnm

theorem autoLowerLoop_keys (profiles : ProfileList) (minThr step : ℝ) :
    ∀ (fuel : ℕ) (cur rep : ℝ) (st : MState) (res : MState × ℝ),
      autoLowerLoop profiles minThr step fuel cur rep st = some res →
      res.1.existing.map Prod.fst = st.existing.map Prod.fst := by
  intro fuel
  induction fuel with
  | zero =>
    intro cur rep st res h
    cases h
    rfl
  | succ n ih =>
    intro cur rep st res h
    simp only [autoLowerLoop] at h
    by_cases hcond : (cur ≥ minThr ∧ hasMatch st = false)
    · rw [if_pos hcond] at h
      cases hA : attemptMerge cur profiles st with
      | none =>
        rw [hA] at h
        exact Option.noConfusion h
      | some st1 =>
        rw [hA] at h
        dsimp only at h
        have hk := (attemptMerge_props cur profiles st st1 hA).1
        by_cases hm : hasMatch st1 = true
        · rw [if_pos hm] at h
          cases h
          exact hk
        · rw [if_neg hm] at h
          exact (ih _ _ _ _ h).trans hk
    · rw [if_neg hcond] at h
      cases h
      rfl

theorem runMatch_keys (auto : Bool) (thr minThr step : ℝ) (profiles : ProfileList)
    (st : MState) (res : MState × ℝ)
    (h : runMatch auto thr minThr step profiles st = some res) :
    res.1.existing.map Prod.fst = st.existing.map Prod.fst := by
  simp only [runMatch] at h
  cases hA : attemptMerge thr profiles st with
  | none =>
    rw [hA] at h
    exact Option.noConfusion h
  | some st1 =>
    rw [hA] at h
    dsimp only at h
    have hk1 := (attemptMerge_props thr profiles st st1 hA).1
    by_cases hcond : (auto = true ∧ st1.existing.isEmpty = false ∧ hasMatch st1 = false)
    · rw [if_pos hcond] at h
      exact (autoLowerLoop_keys profiles minThr step _ _ _ _ _ h).trans hk1
    · rw [if_neg hcond] at h
      cases h
      exact hk1

theorem createNewStep_existing (st : MState) (maxIdx : ℤ) (p : Label × Profile) :
    ∃ l2, (createNewStep st maxIdx p).1.existing = st.existing ++ l2 := by
  unfold createNewStep
  by_cases hs : (alookup st.mapping p.1).isSome = true
  · rw [if_pos hs]
    exact ⟨[], by simp⟩
  · rw [if_neg hs]
    cases p.2.embedding with
    | none => exact ⟨[], by simp⟩
    | some c => exact ⟨_, rfl⟩

theorem createNew_mem_keys (profiles : ProfileList) :
    ∀ (st : MState) (maxIdx : ℤ) (lbl : Label), lbl ∈ st.existing.map Prod.fst →
      lbl ∈ (createNew profiles st maxIdx).1.existing.map Prod.fst := by
  induction profiles with
  | nil =>
    intro st maxIdx lbl h
    exact h
  | cons p rest ih =>
    intro st maxIdx lbl h
    have hcons : createNew (p :: rest) st maxIdx =
        createNew rest (createNewStep st maxIdx p).1 (createNewStep st maxIdx p).2 := rfl
    rw [hcons]
    obtain ⟨l2, hl2⟩ := createNewStep_existing st maxIdx p
    refine ih _ _ lbl ?_
    rw [hl2, List.map_append]
    exact List.mem_append_left _ h

/-- C4: the registry never shrinks. Every global label present in the prior
registry is still present after the whole matching pipeline (threshold pass,
auto-lower retries, and new-label creation): matching only rewrites an
entry's value in place, and creation only appends. -/
theorem C4_registry_never_shrinks (auto : Bool) (thr minThr step : ℝ)
    (profiles : ProfileList) (existing0 : Registry) (st' : MState) (effThr : ℝ) (idx : ℤ)
    (hrun : matchPipeline auto thr minThr step profiles existing0 = some (st', effThr, idx))
    (lbl : Label) (hl : lbl ∈ existing0.map Prod.fst) :
    lbl ∈ st'.existing.map Prod.fst := by
  simp only [matchPipeline] at hrun
  cases hR : runMatch auto thr minThr step profiles ⟨existing0, []⟩ with
  | none =>
    rw [hR] at hrun
    exact Option.noConfusion hrun
  | some r =>
    rw [hR] at hrun
    have hk : r.1.existing.map Prod.fst = existing0.map Prod.fst :=
      runMatch_keys auto thr minThr step profiles ⟨existing0, []⟩ r hR
    have hst' : st' = (createNew profiles r.1 (maxIndexOf existing0)).1 := by
      cases hrun
      rfl
    rw [hst']
    exact createNew_mem_keys profiles r.1 (maxIndexOf existing0) lbl (by rw [hk]; exact hl)

/-- Witness for C4: a run with no local profiles over a one-entry registry;
the prior label `SPK00` survives. -/
theorem C4_witness :
    ∃ st' : MState,
      matchPipeline false 0 0 0 [] [(['S','P','K','0','0'], ⟨[1, 0], 1⟩)] =
        some (st', 0, maxIndexOf [(['S','P','K','0','0'], ⟨[1, 0], 1⟩)]) ∧
      (['S','P','K','0','0'] : Label) ∈ st'.existing.map Prod.fst := by
  have hrun : matchPipeline false 0 0 0 [] [(['S','P','K','0','0'], ⟨[1, 0], 1⟩)] =
      some (⟨[(['S','P','K','0','0'], ⟨[1, 0], 1⟩)], []⟩, 0,
        maxIndexOf [(['S','P','K','0','0'], ⟨[1, 0], 1⟩)]) := by
    simp [matchPipeline, runMatch, attemptMerge, createNew]
  exact ⟨_, hrun, C4_registry_never_shrinks false 0 0 0 [] _ _ 0 _ hrun
    ['S','P','K','0','0'] (by simp)⟩

theorem alookup_some_mem {α : Type} (l : List (Label × α)) (k : Label) (v : α)
    (h : alookup l k = some v) : (k, v) ∈ l := by
  induction l with
  | nil => exact Option.noConfusion h
  | cons e rest ih =>
    simp only [alookup] at h
    by_cases he : e.1 = k
    · rw [if_pos he] at h
      have hv : e.2 = v := Option.some.inj h
      have hkv : (k, v) = e := by
        rw [← he, ← hv]
      rw [hkv]
      exact List.mem_cons_self _ _
    · rw [if_neg he] at h
      exact List.mem_cons_of_mem _ (ih h)

theorem matchExisting_fst_some_of_snd_gt (c : Vec) (existing : Registry)
    (hgt : -2 < (matchExisting c existing).2) :
    ∃ bl, (matchExisting c existing).1 = some bl ∧ bl ∈ existing.map Prod.fst := by
  cases hbl : (matchExisting c existing).1 with
  | none =>
    exfalso
    have heq := meFold_fst_none_eq c existing (none, -2) hbl
    unfold matchExisting at heq hgt
    rw [heq] at hgt
    exact absurd hgt (lt_irrefl _)
  | some bl =>
    rcases meFold_fst_mem c existing (none, -2) bl hbl with h | h
    · exact Option.noConfusion h
    · exact ⟨bl, rfl, h⟩

/-- Helper: a single-profile `attempt_merge` pass whose best similarity
clears the threshold (and the `-2.0` sentinel) succeeds and produces a
matched state. -/
theorem attemptMerge_single_success (thr : ℝ) (st : MState) (spk : Label)
    (prof : Profile) (c : Vec)
    (hm : alookup st.mapping spk = none)
    (hc : prof.embedding = some c)
    (hne : st.existing.isEmpty = false)
    (hth : (matchExisting c st.existing).2 ≥ thr)
    (hgt2 : -2 < (matchExisting c st.existing).2) :
    ∃ st', attemptMerge thr [(spk, prof)] st = some st' ∧ hasMatch st' = true := by
  obtain ⟨bl, hbl, hmem⟩ := matchExisting_fst_some_of_snd_gt c st.existing hgt2
  obtain ⟨old, hold⟩ :=
    Option.isSome_iff_exists.mp ((alookup_isSome_iff st.existing bl).mpr hmem)
  have hpp : ∃ st', processProfile thr st (spk, prof) = some st' ∧
      st'.mapping = st.mapping ++ [(spk, bl)] ∧
      st'.existing.map Prod.fst = st.existing.map Prod.fst := by
    by_cases hdur : old.duration + prof.duration > 0
    · refine ⟨⟨st.existing.map (fun e2 =>
          if e2.1 = bl then
            (e2.1, ⟨normalizeV (vdiv (vadd (vscale old.duration old.embedding)
                (vscale prof.duration c)) (old.duration + prof.duration)),
              old.duration + prof.duration⟩)
          else e2), st.mapping ++ [(spk, bl)]⟩, ?_, rfl, ?_⟩
      · simp only [processProfile, hm, Option.isSome_none, Bool.false_eq_true, if_false,
          hc, hne, hbl, hold, ge_iff_le, hth, if_true, if_pos hdur]
      · rw [List.map_map]
        refine List.map_congr_left ?_
        intro e _
        by_cases he : e.1 = bl <;> simp [he]
    · refine ⟨⟨st.existing, st.mapping ++ [(spk, bl)]⟩, ?_, rfl, rfl⟩
      simp only [processProfile, hm, Option.isSome_none, Bool.false_eq_true, if_false,
        hc, hne, hbl, hold, ge_iff_le, hth, if_true, if_neg hdur]
  obtain ⟨st', hst', hmapeq, hkeys⟩ := hpp
  refine ⟨st', ?_, ?_⟩
  · simp only [attemptMerge, hst']
  · refine hasMatch_of_pair st' (spk, bl) ?_ ?_
    · rw [hmapeq]
      exact List.mem_append_right _ (List.mem_cons_self _ _)
    · rw [hkeys]
      exact hmem

theorem autoLowerLoop_first_success (profiles : ProfileList) (minThr step : ℝ)
    (s0 : MState) (h0 : hasMatch s0 = false) :
    ∀ (m fuel : ℕ) (cur rep : ℝ),
      m < fuel →
      (∀ j : ℕ, j < m → (cur - j * step ≥ minThr ∧
        ∃ sj, attemptMerge (cur - j * step) profiles s0 = some sj ∧ hasMatch sj = false)) →
      cur - m * step ≥ minThr →
      (∃ sm, attemptMerge (cur - m * step) profiles s0 = some sm ∧ hasMatch sm = true) →
      ∃ sm, autoLowerLoop profiles minThr step fuel cur rep s0 =
          some (sm, cur - m * step) ∧ hasMatch sm = true := by
  intro m
  induction m with
  | zero =>
    intro fuel cur rep hfuel _ hfloor hsucc
    obtain ⟨fuel', rfl⟩ : ∃ fuel', fuel = fuel' + 1 := by
      cases fuel with
      | zero => exact absurd hfuel (by omega)
      | succ n => exact ⟨n, rfl⟩
    obtain ⟨sm, hsm, hsmt⟩ := hsucc
    have hcur : cur - (0 : ℕ) * step = cur := by
      push_cast
      ring
    rw [hcur] at hsm hfloor ⊢
    refine ⟨sm, ?_, hsmt⟩
    simp only [autoLowerLoop, if_pos (And.intro hfloor h0), hsm, if_pos hsmt]
  | succ m ih =>
    intro fuel cur rep hfuel hfail hfloor hsucc
    obtain ⟨fuel', rfl⟩ : ∃ fuel', fuel = fuel' + 1 := by
      cases fuel with
      | zero => exact absurd hfuel (by omega)
      | succ n => exact ⟨n, rfl⟩
    obtain ⟨hge0, s1, hs1, hs1f⟩ : (cur - (0 : ℕ) * step ≥ minThr ∧
        ∃ sj, attemptMerge (cur - (0 : ℕ) * step) profiles s0 = some sj ∧
          hasMatch sj = false) := hfail 0 (by omega)
    have hcur : cur - (0 : ℕ) * step = cur := by
      push_cast
      ring
    rw [hcur] at hge0 hs1
    have hs1eq : s1 = s0 := attemptMerge_no_match _ _ _ _ hs1 hs1f
    subst hs1eq
    have hshift : ∀ j : ℕ, (cur - step) - (j : ℝ) * step = cur - ((j + 1 : ℕ) : ℝ) * step := by
      intro j
      push_cast
      ring
    have htail := ih fuel' (cur - step) rep (by omega) ?_ ?_ ?_
    · obtain ⟨sm, hsm, hsmt⟩ := htail
      refine ⟨sm, ?_, hsmt⟩
      simp only [autoLowerLoop, if_pos (And.intro hge0 h0), hs1, hs1f,
        Bool.false_eq_true, if_false]
      rw [hsm, hshift m]
      simp [hge0]
    · intro j hj
      have := hfail (j + 1) (by omega)
      rw [← hshift j] at this
      exact this
    · rw [hshift m]
      exact hfloor
    · rw [hshift m]
      exact hsucc

/-- C3: when auto-lower-threshold is on, the registry nonempty and the first
pass at the user threshold matched nothing, the matcher retries the full set
at `thr - step`, `thr - 2*step`, ... (all at least the floor), stops at the
first retry that produces a match, and reports that retry's threshold as the
effective threshold of the run (`threshold = cur`, source line 848). -/
theorem C3_auto_lower_retries (thr minThr step : ℝ) (profiles : ProfileList)
    (existing0 : Registry) (m : ℕ)
    (hstep : 0 < step)
    (hne : existing0.isEmpty = false)
    (hfirst : ∃ s1, attemptMerge thr profiles ⟨existing0, []⟩ = some s1 ∧
      hasMatch s1 = false)
    (hfail : ∀ j : ℕ, j < m → (thr - ((j + 1 : ℕ) : ℝ) * step ≥ minThr ∧
      ∃ sj, attemptMerge (thr - ((j + 1 : ℕ) : ℝ) * step) profiles ⟨existing0, []⟩ =
        some sj ∧ hasMatch sj = false))
    (hfloor : thr - ((m + 1 : ℕ) : ℝ) * step ≥ minThr)
    (hsucc : ∃ sm, attemptMerge (thr - ((m + 1 : ℕ) : ℝ) * step) profiles ⟨existing0, []⟩ =
        some sm ∧ hasMatch sm = true) :
    ∃ sm, runMatch true thr minThr step profiles ⟨existing0, []⟩ =
        some (sm, thr - ((m + 1 : ℕ) : ℝ) * step) ∧ hasMatch sm = true := by
  have h0 : hasMatch ⟨existing0, []⟩ = false := rfl
  obtain ⟨s1, hs1, hs1f⟩ := hfirst
  have hs1eq : s1 = ⟨existing0, []⟩ := attemptMerge_no_match _ _ _ _ hs1 hs1f
  subst hs1eq
  have hfuel : m < autoFuel thr minThr step := by
    have hv : ((m : ℝ) + 1) * step ≤ thr - minThr := by
      push_cast at hfloor
      linarith
    have hlt : (m : ℝ) < (thr - minThr) / step := by
      rw [lt_div_iff₀ hstep]
      nlinarith
    have hceil : (m : ℤ) < ⌈(thr - minThr) / step⌉ := by
      exact_mod_cast Int.lt_ceil.mpr hlt
    have : m < (⌈(thr - minThr) / step⌉).toNat := Int.lt_toNat.mpr hceil
    unfold autoFuel
    rw [if_pos hstep]
    omega
  have hshift : ∀ j : ℕ, (thr - step) - (j : ℝ) * step = thr - ((j + 1 : ℕ) : ℝ) * step := by
    intro j
    push_cast
    ring
  have hloop := autoLowerLoop_first_success profiles minThr step ⟨existing0, []⟩ h0
    m (autoFuel thr minThr step) (thr - step) thr hfuel ?_ ?_ ?_
  · obtain ⟨sm, hsm, hsmt⟩ := hloop
    refine ⟨sm, ?_, hsmt⟩
    simp only [runMatch, hs1]
    rw [if_pos ⟨trivial, hne, h0⟩]
    rw [hsm, hshift m]
  · intro j hj
    rw [hshift j]
    exact hfail j hj
  · rw [hshift m]
    exact hfloor
  · rw [hshift m]
    exact hsucc

/-- Witness for C3: scenario D of the spec. Threshold 0.85, step 0.05, floor
0.60, best similarity 0.8: the first pass fails, the retry at 0.80 succeeds
(0.8 >= 0.80), and the reported effective threshold is 0.80. -/
theorem C3_witness :
    ∃ sm, runMatch true 0.85 0.60 0.05
        [(['F','0'], ⟨some [0.8, 0.6], 10, []⟩)]
        ⟨[(['S','P','K','0','0'], ⟨[1, 0], 10⟩)], []⟩ = some (sm, 0.8) ∧
      hasMatch sm = true := by
  have harg : (0.85 : ℝ) - ((0 + 1 : ℕ) : ℝ) * 0.05 = 0.8 := by norm_num
  have hfirst : attemptMerge 0.85 [(['F','0'], ⟨some [0.8, 0.6], 10, []⟩)]
      ⟨[(['S','P','K','0','0'], ⟨[1, 0], 10⟩)], []⟩ =
      some ⟨[(['S','P','K','0','0'], ⟨[1, 0], 10⟩)], []⟩ := by
    norm_num [attemptMerge, processProfile, matchExisting, meStep, dot, alookup]
  have hbest : matchExisting [0.8, 0.6] [(['S','P','K','0','0'], ⟨[1, 0], 10⟩)] =
      (some ['S','P','K','0','0'], 0.8) := by
    norm_num [matchExisting, meStep, dot]
  have hsucc := attemptMerge_single_success 0.8
    ⟨[(['S','P','K','0','0'], ⟨[1, 0], 10⟩)], []⟩ ['F','0']
    ⟨some [0.8, 0.6], 10, []⟩ [0.8, 0.6] rfl rfl rfl
    (by rw [hbest]) (by rw [hbest]; norm_num)
  have h := C3_auto_lower_retries 0.85 0.60 0.05
    [(['F','0'], ⟨some [0.8, 0.6], 10, []⟩)]
    [(['S','P','K','0','0'], ⟨[1, 0], 10⟩)] 0
    (by norm_num) rfl ⟨_, hfirst, rfl⟩
    (fun j hj => absurd hj (Nat.not_lt_zero j))
    (by rw [harg]; norm_num)
    (by rw [harg]; exact hsucc)
  rw [harg] at h
  exact h

/-! Embedding of the intra-speaker cleaner (source lines 621-726). -/

/-- Insertion of a value into an ascending list. -/
noncomputable def insertSorted (x : ℝ) : List ℝ → List ℝ
  | [] => [x]
  | y :: ys => if x ≤ y then x :: y :: ys else y :: insertSorted x ys

/-- Ascending sort of the similarity values (`np.percentile` sorts its
input). -/
noncomputable def sortReals (xs : List ℝ) : List ℝ := xs.foldr insertSorted []

/-- `np.percentile(xs, q)` with the default linear interpolation. -/
noncomputable def npPercentile (xs : List ℝ) (q : ℝ) : ℝ :=
  let sorted := sortReals xs
  let n := sorted.length
  let pos := q / 100 * ((n : ℝ) - 1)
  let i := ⌊pos⌋
  let lo := sorted.getD i.toNat 0
  let hi := sorted.getD (min (i.toNat + 1) (n - 1)) 0
  lo + (pos - (i : ℝ)) * (hi - lo)

/-- The duration-weighted raw accumulator over a segment pool (source lines
632-643 and 699-710): segments with `d <= 0` are skipped; the `raw is None`
and non-finite skips are unrepresentable over ℝ. Returns `(vec_acc,
total_dur)`. -/
noncomputable def rawAcc (segs : List SegEmb) : Option Vec × ℝ :=
  segs.foldl
    (fun (acc : Option Vec × ℝ) (sg : SegEmb) =>
      if sg.duration ≤ 0 then acc
      else (some (match acc.1 with
          | none => vscale sg.duration sg.raw
          | some a => vadd a (vscale sg.duration sg.raw)), acc.2 + sg.duration))
    ((none, 0) : Option Vec × ℝ)

/-- One-speaker cleaning loop (source lines 630-695), fuel = remaining
iterations; the boolean records whether any removal happened (`iter_logs`
nonempty). Each iteration recomputes the centroid, computes per-segment
similarities, takes the percentile cutoff, marks segments strictly below it,
and removes them unless the survivor count would drop below `minSeg`. -/
noncomputable def intraCleanIter (minSeg : ℤ) (perc : ℝ) :
    ℕ → List SegEmb → Bool → List SegEmb × Bool
  | 0, segs, logged => (segs, logged)
  | fuel + 1, segs, logged =>
    match (rawAcc segs).1 with
    | none => (segs, logged)
    | some acc =>
      if (rawAcc segs).2 = 0 then (segs, logged)
      else
        let centroid := normalizeV (vdiv acc (rawAcc segs).2)
        let sims := segs.map (fun sg => dot sg.embedding centroid)
        if (sims.length : ℤ) < minSeg + 1 then (segs, logged)
        else
          let cutoff := npPercentile sims (perc * 100)
          let newSegs := segs.filter (fun sg => ¬ (dot sg.embedding centroid < cutoff))
          if (newSegs.length : ℤ) < minSeg then (segs, logged)
          else if segs.length - newSegs.length = 0 then (segs, logged)
          else if (newSegs.length : ℤ) < minSeg + 1 then (newSegs, true)
          else intraCleanIter minSeg perc fuel newSegs true

/-- Per-speaker cleaning (source lines 625-722): skip speakers with fewer
than `minSeg + 1` segments; after the loop, only a run with at least one
removal updates the profile, and only when the recomputed accumulator is
present with positive total duration. -/
noncomputable def intraCleanSpeaker (minSeg : ℤ) (perc : ℝ) (maxIter : ℕ)
    (prof : Profile) : Profile :=
  if (prof.segments.length : ℤ) < minSeg + 1 then prof
  else
    let r := intraCleanIter minSeg perc maxIter prof.segments false
    if r.2 = false then prof
    else
      match (rawAcc r.1).1 with
      | none => prof
      | some acc =>
        if (rawAcc r.1).2 > 0 then
          { embedding := some (normalizeV (vdiv acc (rawAcc r.1).2)),
            duration := (rawAcc r.1).2,
            segments := r.1 }
        else prof

/-- The whole cleaning stage (source lines 623-726), including the final
removal of speakers left with no segments. -/
noncomputable def intraCleanAll (enabled : Bool) (minSeg : ℤ) (perc : ℝ) (maxIter : ℕ)
    (profiles : ProfileList) : ProfileList :=
  if enabled = true ∧ profiles.isEmpty = false then
    (profiles.map (fun p => (p.1, intraCleanSpeaker minSeg perc maxIter p.2))).filter
      (fun p => p.2.segments.isEmpty = false)
  else profiles

theorem intraCleanIter_min (minSeg : ℤ) (perc : ℝ) :
    ∀ (fuel : ℕ) (segs : List SegEmb) (logged : Bool),
      minSeg ≤ ((intraCleanIter minSeg perc fuel segs logged).1.length : ℤ) ∨
        (intraCleanIter minSeg perc fuel segs logged).1 = segs := by
  intro fuel
  induction fuel with
  | zero =>
    intro segs logged
    exact Or.inr rfl
  | succ n ih =>
    intro segs logged
    simp only [intraCleanIter]
    split
    · exact Or.inr rfl
    · split
      · exact Or.inr rfl
      · split
        · exact Or.inr rfl
        · split
          · exact Or.inr rfl
          · split
            · exact Or.inr rfl
            · split
              · rename_i hnotlt _ _
                left
                simp only
                omega
              · rcases ih _ true with h | h
                · exact Or.inl h
                · rename_i hnotlt _ _
                  rw [h]
                  left
                  omega

/-- C6: the intra-speaker cleaner never leaves a processed speaker below
`minSegments`: speakers entering with fewer than `minSegments + 1` segments
are skipped unchanged (source line 627), and an iteration whose removal set
would leave fewer than `minSegments` survivors performs no removal (source
line 668), so the surviving pool either still has at least `minSegments`
segments or is exactly the original pool. -/
theorem C6_cleaner_min_segments (minSeg : ℤ) (perc : ℝ) (maxIter : ℕ) (prof : Profile) :
    ((prof.segments.length : ℤ) < minSeg + 1 →
      intraCleanSpeaker minSeg perc maxIter prof = prof) ∧
    (minSeg ≤ ((intraCleanSpeaker minSeg perc maxIter prof).segments.length : ℤ) ∨
      (intraCleanSpeaker minSeg perc maxIter prof).segments = prof.segments) := by
  constructor
  · intro hlt
    simp only [intraCleanSpeaker, if_pos hlt]
  · by_cases hlt : (prof.segments.length : ℤ) < minSeg + 1
    · simp only [intraCleanSpeaker, if_pos hlt]
      exact Or.inr trivial
    · simp only [intraCleanSpeaker, if_neg hlt]
      have hiter := intraCleanIter_min minSeg perc maxIter prof.segments false
      split
      · exact Or.inr rfl
      · split
        · exact Or.inr rfl
        · split
          · rcases hiter with h | h
            · exact Or.inl h
            · right
              simp only [h]
          · exact Or.inr rfl

/-- Witness for C6: a single-segment speaker with `minSegments = 1` is
skipped unchanged, and the general bound instantiates. -/
theorem C6_witness :
    intraCleanSpeaker 1 (1/4) 2 ⟨some [1, 0], 1, [⟨[1, 0], [1, 0], 1⟩]⟩ =
      ⟨some [1, 0], 1, [⟨[1, 0], [1, 0], 1⟩]⟩ := by
  exact (C6_cleaner_min_segments 1 (1/4) 2 _).1 (by norm_num)

/-! Embedding of the local-speaker merger (source lines 728-796). -/

/-- Python string comparison `a_key <= b_key`, lexicographic on code points. -/
def labelLe : Label → Label → Bool
  | [], _ => true
  | _ :: _, [] => false
  | a :: as, b :: bs => if a < b then true else if b < a then false else labelLe as bs

/-- Removal of a dict key (`del new_profiles[remove]`); dict keys are unique,
so removing the first occurrence is exact. -/
def eraseKey {α : Type} : List (Label × α) → Label → List (Label × α)
  | [], _ => []
  | e :: rest, k => if e.1 = k then rest else e :: eraseKey rest k

/-- `recompute_pair_similarity` (source lines 732-741): `-2.0` when either
embedding is missing (the non-finite case is unrepresentable over ℝ),
otherwise the plain dot product. -/
noncomputable def pairSim (profiles : ProfileList) (aKey bKey : Label) : ℝ :=
  match alookup profiles aKey, alookup profiles bKey with
  | some a, some b =>
    match a.embedding, b.embedding with
    | some ea, some eb => dot ea eb
    | _, _ => -2
  | _, _ => -2

/-- The ordered pair enumeration of the double loop at source lines 749-750:
`(keys[i], keys[j])` for `i < j`. -/
def allPairs : List Label → List (Label × Label)
  | [] => []
  | k :: rest => rest.map (fun k2 => (k, k2)) ++ allPairs rest

/-- The best-pair search (source lines 747-755): strict improvement over the
`-2.0` sentinel, first maximum wins. -/
noncomputable def bpStep (profiles : ProfileList) (best : Option (Label × Label) × ℝ)
    (pr : Label × Label) : Option (Label × Label) × ℝ :=
  if pairSim profiles pr.1 pr.2 > best.2 then (some pr, pairSim profiles pr.1 pr.2) else best

noncomputable def bestPair (profiles : ProfileList) : Option (Label × Label) × ℝ :=
  (allPairs (profiles.map Prod.fst)).foldl (bpStep profiles) (none, -2)

/-- One iteration body of the merge loop (source lines 746-793): find the
best pair, weighted-merge it into the lexicographically smaller label and
delete the other. `none` models the `break` when no pair improves on the
sentinel; the lookup/arithmetic failure branches after a successful
selection are unreachable (the selected pair always has a similarity above
`-2.0`, hence present finite embeddings). -/
noncomputable def mergeStep (profiles : ProfileList) : Option ProfileList :=
  match (bestPair profiles).1 with
  | none => none
  | some pr =>
    match alookup profiles pr.1, alookup profiles pr.2 with
    | some aProf, some bProf =>
      match aProf.embedding, bProf.embedding with
      | some ea, some eb =>
        let total := if aProf.duration + bProf.duration > 0
          then aProf.duration + bProf.duration else 1
        let merged := normalizeV (vdiv (vadd (vscale aProf.duration ea)
          (vscale bProf.duration eb)) total)
        let mergedSegs := aProf.segments ++ bProf.segments
        let keep := if labelLe pr.1 pr.2 then pr.1 else pr.2
        let remove := if labelLe pr.1 pr.2 then pr.2 else pr.1
        some (eraseKey
          (profiles.map (fun p =>
            if p.1 = keep then (p.1, ⟨some merged, total, mergedSegs⟩) else p))
          remove)
      | _, _ => none
    | _, _ => none

/-- The merge `while` loop (source lines 745-796) with its bottom `break`
(line 795), as fuel recursion; `localMerge` supplies sufficient fuel. -/
noncomputable def localMergeLoop (target : ℤ) : ℕ → ProfileList → ProfileList
  | 0, profiles => profiles
  | fuel + 1, profiles =>
    if (profiles.length : ℤ) > target then
      match mergeStep profiles with
      | none => profiles
      | some qs =>
        if (qs.length : ℤ) ≤ target then qs
        else localMergeLoop target fuel qs
    else profiles

/-- The config-gated merger stage (source line 743: truthy and `> 0`). -/
noncomputable def localMerge (target : ℤ) (profiles : ProfileList) : ProfileList :=
  if target > 0 then localMergeLoop target profiles.length profiles else profiles

/-- Number of profiles with a present (finite) centroid. -/
def validCount (profiles : ProfileList) : ℕ :=
  (profiles.filter (fun p => p.2.embedding.isSome)).length

theorem normSq_normalizeV_le_one' (v : Vec) : normSq (normalizeV v) ≤ 1 := by
  by_cases hp : 0 < vnorm v
  · rw [normSq_normalizeV_eq_one v ((vnorm_pos_iff v).mp hp)]
  · unfold normalizeV
    rw [if_neg hp]
    have h0 : normSq v = 0 := by
      rcases lt_or_eq_of_le (normSq_nonneg v) with h | h
      · exact absurd ((vnorm_pos_iff v).mpr h) hp
      · exact h.symm
    rw [h0]
    norm_num

theorem dot_comm (a b : Vec) : dot a b = dot b a := by
  unfold dot
  congr 1
  induction a generalizing b with
  | nil => cases b <;> simp
  | cons x xs ih =>
    cases b with
    | nil => simp
    | cons y ys =>
      simp only [List.zipWith_cons_cons]
      rw [ih ys, mul_comm]

theorem allPairs_mem (ks : List Label) (pr : Label × Label) (h : pr ∈ allPairs ks) :
    pr.1 ∈ ks ∧ pr.2 ∈ ks := by
  induction ks with
  | nil => cases h
  | cons k rest ih =>
    simp only [allPairs, List.mem_append] at h
    rcases h with h | h
    · rcases List.mem_map.mp h with ⟨k2, hk2, heq⟩
      rw [← heq]
      exact ⟨List.mem_cons_self _ _, List.mem_cons_of_mem _ hk2⟩
    · obtain ⟨h1, h2⟩ := ih h
      exact ⟨List.mem_cons_of_mem _ h1, List.mem_cons_of_mem _ h2⟩

theorem allPairs_complete (ks : List Label) (a b : Label) (ha : a ∈ ks) (hb : b ∈ ks)
    (hne : a ≠ b) : (a, b) ∈ allPairs ks ∨ (b, a) ∈ allPairs ks := by
  induction ks with
  | nil => cases ha
  | cons k rest ih =>
    rcases List.mem_cons.mp ha with hak | har
    · left
      have hbr : b ∈ rest := by
        rcases List.mem_cons.mp hb with hbk | hbr
        · exact absurd (hak.trans hbk.symm) hne
        · exact hbr
      simp only [allPairs, List.mem_append]
      left
      rw [hak]
      exact List.mem_map.mpr ⟨b, hbr, rfl⟩
    · rcases List.mem_cons.mp hb with hbk | hbr
      · right
        simp only [allPairs, List.mem_append]
        left
        rw [hbk]
        exact List.mem_map.mpr ⟨a, har, rfl⟩
      · rcases ih har hbr with h | h
        · left
          simp only [allPairs, List.mem_append]
          exact Or.inr h
        · right
          simp only [allPairs, List.mem_append]
          exact Or.inr h

theorem bpFold_snd_ge_init (profiles : ProfileList) (l : List (Label × Label)) :
    ∀ b : Option (Label × Label) × ℝ, b.2 ≤ (l.foldl (bpStep profiles) b).2 := by
  induction l with
  | nil =>
    intro b
    exact le_rfl
  | cons pr rest ih =>
    intro b
    refine le_trans ?_ (ih (bpStep profiles b pr))
    unfold bpStep
    by_cases h : pairSim profiles pr.1 pr.2 > b.2
    · rw [if_pos h]
      exact le_of_lt h
    · rw [if_neg h]

theorem bpFold_snd_ge_mem (profiles : ProfileList) (pr : Label × Label)
    (l : List (Label × Label)) :
    ∀ b : Option (Label × Label) × ℝ, pr ∈ l →
      pairSim profiles pr.1 pr.2 ≤ (l.foldl (bpStep profiles) b).2 := by
  induction l with
  | nil =>
    intro b h
    cases h
  | cons f rest ih =>
    intro b h
    rcases List.mem_cons.mp h with h' | h'
    · subst h'
      refine le_trans ?_ (bpFold_snd_ge_init profiles rest (bpStep profiles b pr))
      unfold bpStep
      by_cases hgt : pairSim profiles pr.1 pr.2 > b.2
      · rw [if_pos hgt]
      · rw [if_neg hgt]
        exact le_of_not_lt hgt
    · exact ih (bpStep profiles b f) h'

theorem bpFold_fst_isSome_mono (profiles : ProfileList) (l : List (Label × Label)) :
    ∀ b : Option (Label × Label) × ℝ, b.1.isSome = true →
      (l.foldl (bpStep profiles) b).1.isSome = true := by
  induction l with
  | nil =>
    intro b hb
    simpa using hb
  | cons pr rest ih =>
    intro b hb
    refine ih (bpStep profiles b pr) ?_
    unfold bpStep
    by_cases h : pairSim profiles pr.1 pr.2 > b.2
    · rw [if_pos h]
      rfl
    · rwa [if_neg h]

theorem bpFold_fst_none_eq (profiles : ProfileList) (l : List (Label × Label)) :
    ∀ b : Option (Label × Label) × ℝ, (l.foldl (bpStep profiles) b).1 = none →
      l.foldl (bpStep profiles) b = b := by
  induction l with
  | nil =>
    intro b _
    rfl
  | cons pr rest ih =>
    intro b h
    by_cases hgt : pairSim profiles pr.1 pr.2 > b.2
    · exfalso
      have hs : (bpStep profiles b pr).1.isSome = true := by
        unfold bpStep
        rw [if_pos hgt]
        rfl
      have hmono := bpFold_fst_isSome_mono profiles rest (bpStep profiles b pr) hs
      simp only [List.foldl_cons] at h
      rw [h] at hmono
      exact Bool.noConfusion hmono
    · have hstep : bpStep profiles b pr = b := by
        unfold bpStep
        rw [if_neg hgt]
      simp only [List.foldl_cons, hstep] at h ⊢
      exact ih b h

theorem bpFold_fst_mem (profiles : ProfileList) (l : List (Label × Label)) :
    ∀ (b : Option (Label × Label) × ℝ) (pr : Label × Label),
      (l.foldl (bpStep profiles) b).1 = some pr → b.1 = some pr ∨ pr ∈ l := by
  induction l with
  | nil =>
    intro b pr h
    exact Or.inl h
  | cons f rest ih =>
    intro b pr h
    simp only [List.foldl_cons] at h
    rcases ih (bpStep profiles b f) pr h with h' | h'
    · unfold bpStep at h'
      by_cases hgt : pairSim profiles f.1 f.2 > b.2
      · rw [if_pos hgt] at h'
        right
        rw [← Option.some.inj h']
        exact List.mem_cons_self _ _
      · rw [if_neg hgt] at h'
        exact Or.inl h'
    · exact Or.inr (List.mem_cons_of_mem _ h')

theorem bpFold_inv (profiles : ProfileList) (l : List (Label × Label)) :
    ∀ b : Option (Label × Label) × ℝ,
      (-2 ≤ b.2 ∧ ∀ pr, b.1 = some pr →
        b.2 = pairSim profiles pr.1 pr.2 ∧ -2 < b.2) →
      (-2 ≤ (l.foldl (bpStep profiles) b).2 ∧
        ∀ pr, (l.foldl (bpStep profiles) b).1 = some pr →
          (l.foldl (bpStep profiles) b).2 = pairSim profiles pr.1 pr.2 ∧
            -2 < (l.foldl (bpStep profiles) b).2) := by
  induction l with
  | nil =>
    intro b hb
    exact hb
  | cons f rest ih =>
    intro b hb
    refine ih (bpStep profiles b f) ?_
    unfold bpStep
    by_cases hgt : pairSim profiles f.1 f.2 > b.2
    · rw [if_pos hgt]
      refine ⟨le_of_lt (lt_of_le_of_lt hb.1 hgt), ?_⟩
      intro pr hpr
      have : f = pr := Option.some.inj hpr
      rw [← this]
      exact ⟨rfl, lt_of_le_of_lt hb.1 hgt⟩
    · rw [if_neg hgt]
      exact hb

theorem pairSim_elim (profiles : ProfileList) (a b : Label)
    (h : -2 < pairSim profiles a b) :
    ∃ pa pb ea eb, alookup profiles a = some pa ∧ alookup profiles b = some pb ∧
      pa.embedding = some ea ∧ pb.embedding = some eb ∧
      pairSim profiles a b = dot ea eb := by
  unfold pairSim at h
  split at h
  · rename_i pa pb ha hb
    split at h
    · rename_i ea eb hea heb
      refine ⟨pa, pb, ea, eb, ha, hb, hea, heb, ?_⟩
      unfold pairSim
      rw [ha, hb]
      dsimp only
      rw [hea, heb]
    · exact absurd h (lt_irrefl _)
  · exact absurd h (lt_irrefl _)

theorem eraseKey_length {α : Type} (l : List (Label × α)) (k : Label)
    (h : k ∈ l.map Prod.fst) : (eraseKey l k).length + 1 = l.length := by
  induction l with
  | nil => cases h
  | cons e rest ih =>
    simp only [eraseKey]
    by_cases he : e.1 = k
    · rw [if_pos he]
      rfl
    · rw [if_neg he]
      have hk : k ∈ rest.map Prod.fst := by
        rcases List.mem_cons.mp h with h' | h'
        · exact absurd h'.symm he
        · exact h'
      simp only [List.length_cons]
      rw [← ih hk]

theorem eraseKey_sublist {α : Type} (l : List (Label × α)) (k : Label) :
    (eraseKey l k).Sublist l := by
  induction l with
  | nil => exact List.Sublist.refl _
  | cons e rest ih =>
    simp only [eraseKey]
    by_cases he : e.1 = k
    · rw [if_pos he]
      exact List.sublist_cons_self _ _
    · rw [if_neg he]
      exact List.Sublist.cons₂ _ ih

theorem alookup_of_mem_nodup {α : Type} (l : List (Label × α)) (k : Label) (v : α)
    (hnd : (l.map Prod.fst).Nodup) (hm : (k, v) ∈ l) : alookup l k = some v := by
  induction l with
  | nil => cases hm
  | cons e rest ih =>
    simp only [alookup]
    rcases List.mem_cons.mp hm with h' | h'
    · rw [← h']
      rw [if_pos rfl]
    · by_cases he : e.1 = k
      · exfalso
        have : k ∈ rest.map Prod.fst := List.mem_map.mpr ⟨(k, v), h', rfl⟩
        rw [List.map_cons] at hnd
        rw [he] at hnd
        exact (List.nodup_cons.mp hnd).1 this
      · rw [if_neg he]
        exact ih (List.nodup_cons.mp (by rwa [List.map_cons] at hnd)).2 h'

theorem mapKeys_of_update (profiles : ProfileList) (keep : Label) (pr2 : Profile) :
    (profiles.map (fun p => if p.1 = keep then (p.1, pr2) else p)).map Prod.fst =
      profiles.map Prod.fst := by
  rw [List.map_map]
  refine List.map_congr_left ?_
  intro p _
  by_cases hp : p.1 = keep <;> simp [hp]

theorem bestPair_fst_mem (profiles : ProfileList) (pr : Label × Label)
    (h : (bestPair profiles).1 = some pr) : pr ∈ allPairs (profiles.map Prod.fst) := by
  rcases bpFold_fst_mem profiles (allPairs (profiles.map Prod.fst)) (none, -2) pr h with
    h' | h'
  · exact Option.noConfusion h'
  · exact h'

/-- Each successful merge iteration removes exactly one profile. -/
theorem mergeStep_length (profiles qs : ProfileList) (h : mergeStep profiles = some qs) :
    qs.length + 1 = profiles.length := by
  simp only [mergeStep] at h
  split at h
  · exact Option.noConfusion h
  · rename_i pr hbp
    split at h
    · rename_i aProf bProf ha hb
      split at h
      · rename_i ea eb hea heb
        have hq := Option.some.inj h
        have hmem := allPairs_mem (profiles.map Prod.fst) pr (bestPair_fst_mem profiles pr hbp)
        have hrem : (if labelLe pr.1 pr.2 then pr.2 else pr.1) ∈ profiles.map Prod.fst := by
          by_cases hle : labelLe pr.1 pr.2 = true
          · rw [if_pos hle]
            exact hmem.2
          · rw [if_neg hle]
            exact hmem.1
        rw [← hq]
        have hkeys := mapKeys_of_update profiles
          (if labelLe pr.1 pr.2 then pr.1 else pr.2)
          ⟨some (normalizeV (vdiv (vadd (vscale aProf.duration ea)
              (vscale bProf.duration eb))
            (if aProf.duration + bProf.duration > 0
              then aProf.duration + bProf.duration else 1))),
            (if aProf.duration + bProf.duration > 0
              then aProf.duration + bProf.duration else 1),
            aProf.segments ++ bProf.segments⟩
        rw [eraseKey_length _ _ (by rw [hkeys]; exact hrem), List.length_map]
      · exact Option.noConfusion h
    · exact Option.noConfusion h

theorem mergeStep_invariants (profiles qs : ProfileList) (h : mergeStep profiles = some qs)
    (hnd : (profiles.map Prod.fst).Nodup)
    (hsub : ∀ p ∈ profiles, ∀ v, p.2.embedding = some v → normSq v ≤ 1) :
    (qs.map Prod.fst).Nodup ∧
    (∀ p ∈ qs, ∀ v, p.2.embedding = some v → normSq v ≤ 1) := by
  simp only [mergeStep] at h
  split at h
  · exact Option.noConfusion h
  · rename_i pr hbp
    split at h
    · rename_i aProf bProf ha hb
      split at h
      · rename_i ea eb hea heb
        have hq := Option.some.inj h
        rw [← hq]
        constructor
        · have hsub1 : (eraseKey (profiles.map (fun p =>
              if p.1 = (if labelLe pr.1 pr.2 then pr.1 else pr.2) then
                (p.1, ⟨some (normalizeV (vdiv (vadd (vscale aProf.duration ea)
                    (vscale bProf.duration eb))
                  (if aProf.duration + bProf.duration > 0
                    then aProf.duration + bProf.duration else 1))),
                  (if aProf.duration + bProf.duration > 0
                    then aProf.duration + bProf.duration else 1),
                  aProf.segments ++ bProf.segments⟩)
              else p)) (if labelLe pr.1 pr.2 then pr.2 else pr.1)).map Prod.fst |>.Sublist
              ((profiles.map (fun p =>
                if p.1 = (if labelLe pr.1 pr.2 then pr.1 else pr.2) then
                  (p.1, ⟨some (normalizeV (vdiv (vadd (vscale aProf.duration ea)
                      (vscale bProf.duration eb))
                    (if aProf.duration + bProf.duration > 0
                      then aProf.duration + bProf.duration else 1))),
                    (if aProf.duration + bProf.duration > 0
                      then aProf.duration + bProf.duration else 1),
                    aProf.segments ++ bProf.segments⟩)
                else p)).map Prod.fst) :=
            List.Sublist.map Prod.fst (eraseKey_sublist _ _)
          rw [mapKeys_of_update] at hsub1
          exact List.Nodup.sublist hsub1 hnd
        · intro p hp v hv
          have hp2 : p ∈ profiles.map (fun p =>
              if p.1 = (if labelLe pr.1 pr.2 then pr.1 else pr.2) then
                (p.1, ⟨some (normalizeV (vdiv (vadd (vscale aProf.duration ea)
                    (vscale bProf.duration eb))
                  (if aProf.duration + bProf.duration > 0
                    then aProf.duration + bProf.duration else 1))),
                  (if aProf.duration + bProf.duration > 0
                    then aProf.duration + bProf.duration else 1),
                  aProf.segments ++ bProf.segments⟩)
              else p) :=
            (eraseKey_sublist _ _).mem hp
          rcases List.mem_map.mp hp2 with ⟨p0, hp0, hpe⟩
          by_cases hk : p0.1 = (if labelLe pr.1 pr.2 then pr.1 else pr.2)
          · rw [if_pos hk] at hpe
            rw [← hpe] at hv
            simp only at hv
            rw [← Option.some.inj hv]
            exact normSq_normalizeV_le_one' _
          · rw [if_neg hk] at hpe
            rw [← hpe] at hv
            exact hsub p0 hp0 v hv
      · exact Option.noConfusion h
    · exact Option.noConfusion h

theorem validCount_lt_two_of_mergeStep_none (profiles : ProfileList)
    (h : mergeStep profiles = none)
    (hnd : (profiles.map Prod.fst).Nodup)
    (hsub : ∀ p ∈ profiles, ∀ v, p.2.embedding = some v → normSq v ≤ 1) :
    validCount profiles < 2 := by
  by_contra hge
  push_neg at hge
  obtain ⟨x, y, rest, hF⟩ : ∃ x y rest,
      profiles.filter (fun p => p.2.embedding.isSome) = x :: y :: rest := by
    unfold validCount at hge
    cases hF : profiles.filter (fun p => p.2.embedding.isSome) with
    | nil =>
      rw [hF] at hge
      simp at hge
    | cons x F' =>
      cases F' with
      | nil =>
        rw [hF] at hge
        simp at hge
      | cons y rest => exact ⟨x, y, rest, rfl⟩
  have hxF : x ∈ profiles.filter (fun p => p.2.embedding.isSome) := by
    rw [hF]
    exact List.mem_cons_self _ _
  have hyF : y ∈ profiles.filter (fun p => p.2.embedding.isSome) := by
    rw [hF]
    exact List.mem_cons_of_mem _ (List.mem_cons_self _ _)
  have hxp : x ∈ profiles := List.mem_of_mem_filter hxF
  have hyp : y ∈ profiles := List.mem_of_mem_filter hyF
  obtain ⟨ex, hex⟩ := Option.isSome_iff_exists.mp (by simpa using List.of_mem_filter hxF)
  obtain ⟨ey, hey⟩ := Option.isSome_iff_exists.mp (by simpa using List.of_mem_filter hyF)
  have hndF : ((profiles.filter (fun p => p.2.embedding.isSome)).map Prod.fst).Nodup :=
    List.Nodup.sublist (List.Sublist.map Prod.fst (List.filter_sublist _)) hnd
  have hxyne : x.1 ≠ y.1 := by
    rw [hF] at hndF
    simp only [List.map_cons, List.nodup_cons, List.mem_cons] at hndF
    intro hxy
    exact hndF.1 (Or.inl hxy)
  have hax : alookup profiles x.1 = some x.2 :=
    alookup_of_mem_nodup profiles x.1 x.2 hnd (by simpa using hxp)
  have hay : alookup profiles y.1 = some y.2 :=
    alookup_of_mem_nodup profiles y.1 y.2 hnd (by simpa using hyp)
  have hsim : pairSim profiles x.1 y.1 = dot ex ey := by
    unfold pairSim
    rw [hax, hay]
    dsimp only
    rw [hex, hey]
  have hsim2 : -2 < pairSim profiles x.1 y.1 := by
    rw [hsim]
    have := neg_one_le_dot ex ey (hsub x hxp ex hex) (hsub y hyp ey hey)
    linarith
  have hx1 : x.1 ∈ profiles.map Prod.fst := List.mem_map.mpr ⟨x, hxp, rfl⟩
  have hy1 : y.1 ∈ profiles.map Prod.fst := List.mem_map.mpr ⟨y, hyp, rfl⟩
  have hbig : -2 < (bestPair profiles).2 := by
    rcases allPairs_complete (profiles.map Prod.fst) x.1 y.1 hx1 hy1 hxyne with hpr | hpr
    · exact lt_of_lt_of_le hsim2
        (bpFold_snd_ge_mem profiles (x.1, y.1) _ (none, -2) hpr)
    · have hsim3 : -2 < pairSim profiles y.1 x.1 := by
        unfold pairSim
        rw [hay, hax]
        dsimp only
        rw [hey, hex]
        dsimp only
        rw [dot_comm]
        rw [hsim] at hsim2
        exact hsim2
      exact lt_of_lt_of_le hsim3
        (bpFold_snd_ge_mem profiles (y.1, x.1) _ (none, -2) hpr)
  cases hbp : (bestPair profiles).1 with
  | none =>
    have heq := bpFold_fst_none_eq profiles (allPairs (profiles.map Prod.fst)) (none, -2) hbp
    unfold bestPair at hbig
    rw [heq] at hbig
    exact absurd hbig (lt_irrefl _)
  | some pr =>
    have hinv := (bpFold_inv profiles (allPairs (profiles.map Prod.fst)) (none, -2)
      ⟨le_refl _, fun pr0 hpr0 => Option.noConfusion hpr0⟩).2 pr hbp
    have hprsim : -2 < pairSim profiles pr.1 pr.2 := by
      rw [← hinv.1]
      exact hinv.2
    obtain ⟨pa, pb, ea, eb, hpa, hpb, hea, heb, _⟩ := pairSim_elim profiles pr.1 pr.2 hprsim
    simp only [mergeStep, hbp, hpa, hpb, hea, heb] at h
    exact Option.noConfusion h

theorem localMergeLoop_bound (target : ℤ) (_ht : 0 < target) :
    ∀ (fuel : ℕ) (profiles : ProfileList), profiles.length ≤ fuel →
      (profiles.map Prod.fst).Nodup →
      (∀ p ∈ profiles, ∀ v, p.2.embedding = some v → normSq v ≤ 1) →
      (((localMergeLoop target fuel profiles).length : ℤ) ≤ max target 1 ∨
        validCount (localMergeLoop target fuel profiles) < 2) := by
  intro fuel
  induction fuel with
  | zero =>
    intro profiles hlen _ _
    left
    simp only [localMergeLoop]
    have h0 : profiles.length = 0 := Nat.le_zero.mp hlen
    rw [h0]
    simp
  | succ n ih =>
    intro profiles hlen hnd hsub
    simp only [localMergeLoop]
    by_cases hgt : (profiles.length : ℤ) > target
    · rw [if_pos hgt]
      cases hms : mergeStep profiles with
      | none =>
        dsimp only
        right
        exact validCount_lt_two_of_mergeStep_none profiles hms hnd hsub
      | some qs =>
        dsimp only
        have hlq := mergeStep_length profiles qs hms
        have hinvs := mergeStep_invariants profiles qs hms hnd hsub
        by_cases hle : (qs.length : ℤ) ≤ target
        · rw [if_pos hle]
          left
          exact le_trans hle (le_max_left _ _)
        · rw [if_neg hle]
          exact ih qs (by omega) hinvs.1 hinvs.2
    · rw [if_neg hgt]
      left
      exact le_trans (le_of_not_lt hgt) (le_max_left _ _)

/-- C5: with a positive target, every iteration of the local-merger loop
removes exactly one profile, and (over the normalised-or-zero centroids the
pipeline produces, stated as the sub-unit-norm hypothesis) the loop ends
with at most `max(target, 1)` profiles unless it runs out of valid
mergeable pairs, i.e. fewer than two profiles with present finite
centroids remain. -/
theorem C5_local_merger (target : ℤ) (profiles : ProfileList)
    (ht : 0 < target)
    (hnd : (profiles.map Prod.fst).Nodup)
    (hsub : ∀ p ∈ profiles, ∀ v, p.2.embedding = some v → normSq v ≤ 1) :
    (∀ ps qs : ProfileList, mergeStep ps = some qs → qs.length + 1 = ps.length) ∧
    (((localMerge target profiles).length : ℤ) ≤ max target 1 ∨
      validCount (localMerge target profiles) < 2) := by
  refine ⟨mergeStep_length, ?_⟩
  unfold localMerge
  rw [if_pos ht]
  exact localMergeLoop_bound target ht profiles.length profiles le_rfl hnd hsub

/-- Witness for C5: two single-speaker profiles with unit centroids and
target 1. -/
theorem C5_witness :
    ((localMerge 1 [(['A'], ⟨some [1, 0], 1, []⟩),
        (['B'], ⟨some [1, 0], 1, []⟩)]).length : ℤ) ≤ max 1 1 ∨
      validCount (localMerge 1 [(['A'], ⟨some [1, 0], 1, []⟩),
        (['B'], ⟨some [1, 0], 1, []⟩)]) < 2 := by
  refine (C5_local_merger 1 _ (by norm_num) ?_ ?_).2
  · simp
  · intro p hp v hv
    rcases List.mem_cons.mp hp with h | h
    · rw [h] at hv
      simp only at hv
      rw [← Option.some.inj hv]
      norm_num [normSq]
    · rcases List.mem_cons.mp h with h' | h'
      · rw [h'] at hv
        simp only at hv
        rw [← Option.some.inj hv]
        norm_num [normSq]
      · cases h'

/-! Embedding of grouping, profile building, diagnostics and the `main`
pipeline core (source lines 219-232, 507-526, 537-552, 606-619, 798-800,
852-896 and the output bundle). -/

/-- One entry of the diarization `segments` JSON (case-variant keys and
float coercions already applied; a missing speaker key is `none`). -/
structure RawSeg where
  speaker : Option Label
  start : ℝ
  stop : ℝ

/-- Append a segment to an insertion-ordered dict of lists
(`spk_map.setdefault(spk, []).append(...)`, source line 231). -/
def pushSeg (m : List (Label × List (ℝ × ℝ))) (k : Label) (pr : ℝ × ℝ) :
    List (Label × List (ℝ × ℝ)) :=
  match m with
  | [] => [(k, [pr])]
  | e :: rest => if e.1 = k then (e.1, e.2 ++ [pr]) :: rest else e :: pushSeg rest k pr

/-- `group_segments_by_speaker` (source lines 219-232): skip entries with no
speaker or with `end <= start`. -/
noncomputable def groupSegments (segs : List RawSeg) : List (Label × List (ℝ × ℝ)) :=
  segs.foldl
    (fun m sg =>
      match sg.speaker with
      | none => m
      | some spk => if sg.stop ≤ sg.start then m else pushSeg m spk (sg.start, sg.stop))
    []

/-- Profile building (source lines 611-619): run `extract_embeddings` per
grouped speaker, dropping speakers whose centroid is `None`. -/
noncomputable def buildProfiles (W : List ℝ) (sr : ℕ) (inference : List ℝ → Option Vec)
    (minSegDur minRms : ℝ) (grouped : List (Label × List (ℝ × ℝ))) : ProfileList :=
  grouped.filterMap (fun g =>
    match extractEmbeddings W sr inference minSegDur minRms g.2 with
    | (none, _, _) => none
    | (some c, dur, segs) => some (g.1, ⟨some c, dur, segs⟩))

/-- `build_similarity_matrix` (source lines 507-526): empty when the
registry is empty; one row per profile with one `Option ℝ` cell per registry
entry, `none` marking the NaN row of a missing/non-finite profile embedding
(registry embeddings are always finite in the real-valued model). -/
noncomputable def buildSimilarityMatrix (profiles : ProfileList) (existing : Registry) :
    List (Label × List (Label × Option ℝ)) :=
  if existing.isEmpty then []
  else
    profiles.map (fun p =>
      (p.1, match p.2.embedding with
        | none => existing.map (fun e => (e.1, (none : Option ℝ)))
        | some emb => existing.map (fun e => (e.1, some (dot emb e.2.embedding)))))

/-- Best finite cell of a matrix row (source lines 861-867): Python `max`
over the finite items, first maximum winning. -/
noncomputable def bestOfRow (row : List (Label × Option ℝ)) : Option (Label × ℝ) :=
  row.foldl
    (fun best cell =>
      match cell.2 with
      | none => best
      | some v =>
        match best with
        | none => some (cell.1, v)
        | some b => if v > b.2 then some (cell.1, v) else best)
    none

/-- The best-match report (source lines 859-867). -/
noncomputable def bestReportOf (matrix : List (Label × List (Label × Option ℝ))) :
    List (Label × Option Label × Option ℝ) :=
  matrix.map (fun r =>
    match bestOfRow r.2 with
    | none => (r.1, none, none)
    | some gv => (r.1, some gv.1, some gv.2))

/-- `invalid_file_speakers` (source line 889): labels of retained profiles
whose embedding is missing (or non-finite, unrepresentable over ℝ). -/
def invalidOf (profiles : ProfileList) : List Label :=
  (profiles.filter (fun p => p.2.embedding.isNone)).map Prod.fst

/-- Insertion into a label-sorted association list. -/
def insertLabelSorted {α : Type} (e : Label × α) : List (Label × α) → List (Label × α)
  | [] => [e]
  | f :: fs => if labelLe e.1 f.1 then e :: f :: fs else f :: insertLabelSorted e fs

/-- `sorted(existing.items())` (source line 1002): keys are unique, so the
key order determines the sort. -/
def sortByLabel {α : Type} (l : List (Label × α)) : List (Label × α) :=
  l.foldr insertLabelSorted []

/-- The configuration slice of the command line that the core consumes. -/
structure Config where
  threshold : ℝ
  autoLower : Bool
  autoLowerMin : ℝ
  autoLowerStep : ℝ
  targetLocal : ℤ
  intraClean : Bool
  intraPerc : ℝ
  intraMinSegments : ℤ
  intraMaxIter : ℕ
  minSegDur : ℝ
  minRms : ℝ

/-- The output bundle of a completed run: the fields of the output JSON that
the modelled core produces (vector statistics are outside the claims'
scope). `errorMsg` carries the `error` field of the two early-return
payloads; both early returns are successful terminations (`return`, exit
code 0), unlike the `sys.exit(1)` I/O failures outside the modelled core. -/
structure OutBundle where
  speakers : Registry
  mapping : List (Label × Label)
  threshold : ℝ
  simMatrix : List (Label × List (Label × Option ℝ))
  bestReport : List (Label × Option Label × Option ℝ)
  invalidFileSpeakers : List Label
  errorMsg : Option String

/-- The local-profile stages: build, optional intra-clean, optional merge
(source lines 606-796). -/
noncomputable def stagedProfiles (cfg : Config) (W : List ℝ) (sr : ℕ)
    (inference : List ℝ → Option Vec) (segments : List RawSeg) : ProfileList :=
  localMerge cfg.targetLocal
    (intraCleanAll cfg.intraClean cfg.intraMinSegments cfg.intraPerc cfg.intraMaxIter
      (buildProfiles W sr inference cfg.minSegDur cfg.minRms (groupSegments segments)))

/-- The pipeline core of `main` (source lines 536-552, 606-896), with I/O,
model loading and statistics stripped. `none` models the uncaught
`KeyError` crash; both empty-input early returns yield `some` with empty
outputs and an `error` message, mirroring `return` (success) in the
source. -/
noncomputable def mainCore (cfg : Config) (W : List ℝ) (sr : ℕ)
    (inference : List ℝ → Option Vec) (segments : List RawSeg)
    (existing0 : Registry) : Option OutBundle :=
  if segments.isEmpty then
    some ⟨[], [], cfg.threshold, [], [], [], some "no segments"⟩
  else
    let profiles := stagedProfiles cfg W sr inference segments
    if profiles.isEmpty then
      some ⟨[], [], cfg.threshold, [], [], [], some "no valid speaker vectors"⟩
    else
      match runMatch cfg.autoLower cfg.threshold cfg.autoLowerMin cfg.autoLowerStep
          profiles ⟨existing0, []⟩ with
      | none => none
      | some (st1, effThr) =>
        let diag := buildSimilarityMatrix profiles st1.existing
        let r := createNew profiles st1 (maxIndexOf existing0)
        some ⟨sortByLabel r.1.existing, r.1.mapping, effThr, diag, bestReportOf diag,
          invalidOf profiles, none⟩

/-- C7: an empty run is a valid, non-fatal terminal state. With no segments
at all, or with zero local profiles surviving the build/clean/merge stages,
the core returns successfully (the source `return`s with exit code 0 rather
than `sys.exit(1)`) with empty mapping and outputs. -/
theorem C7_empty_input (cfg : Config) (W : List ℝ) (sr : ℕ)
    (inference : List ℝ → Option Vec) (segments : List RawSeg) (existing0 : Registry)
    (h : segments.isEmpty = true ∨
      (stagedProfiles cfg W sr inference segments).isEmpty = true) :
    ∃ b, mainCore cfg W sr inference segments existing0 = some b ∧
      b.mapping = [] ∧ b.speakers = [] ∧ b.simMatrix = [] := by
  by_cases hs : segments.isEmpty = true
  · refine ⟨⟨[], [], cfg.threshold, [], [], [], some "no segments"⟩, ?_, rfl, rfl, rfl⟩
    simp only [mainCore]
    rw [if_pos hs]
  · rcases h with h | h
    · exact absurd h hs
    · refine ⟨⟨[], [], cfg.threshold, [], [], [],
        some "no valid speaker vectors"⟩, ?_, rfl, rfl, rfl⟩
      simp only [mainCore]
      rw [if_neg hs, if_pos h]

/-- Witness for C7: the empty-segments run. -/
theorem C7_witness :
    ∃ b, mainCore ⟨0.75, false, 0.6, 0.05, 0, false, 0.25, 3, 2, 0.3, 0.002⟩
        [] 1 exInfU [] [] = some b ∧
      b.mapping = [] ∧ b.speakers = [] ∧ b.simMatrix = [] :=
  C7_empty_input _ _ _ _ _ _ (Or.inl rfl)

theorem buildSimilarityMatrix_row_keys (profiles : ProfileList) (existing : Registry) :
    ∀ row ∈ buildSimilarityMatrix profiles existing,
      row.2.map Prod.fst = existing.map Prod.fst := by
  intro row hrow
  unfold buildSimilarityMatrix at hrow
  by_cases he : existing.isEmpty = true
  · rw [if_pos he] at hrow
    cases hrow
  · rw [if_neg he] at hrow
    rcases List.mem_map.mp hrow with ⟨p, _, hpe⟩
    rw [← hpe]
    cases p.2.embedding
    · simp [List.map_map]
    · simp [List.map_map]

theorem buildSimilarityMatrix_keys (profiles : ProfileList) (existing : Registry)
    (hne : existing.isEmpty = false) :
    (buildSimilarityMatrix profiles existing).map Prod.fst = profiles.map Prod.fst := by
  unfold buildSimilarityMatrix
  rw [if_neg (by rw [hne]; exact Bool.noConfusion)]
  rw [List.map_map]
  rfl

theorem bestOfRow_mem (row : List (Label × Option ℝ)) :
    ∀ (b : Option (Label × ℝ)) (gv : Label × ℝ),
      row.foldl (fun best cell =>
        match cell.2 with
        | none => best
        | some v =>
          match best with
          | none => some (cell.1, v)
          | some b => if v > b.2 then some (cell.1, v) else best) b = some gv →
      b = some gv ∨ gv.1 ∈ row.map Prod.fst := by
  induction row with
  | nil =>
    intro b gv h
    exact Or.inl h
  | cons cell rest ih =>
    intro b gv h
    simp only [List.foldl_cons] at h
    rcases ih _ gv h with h' | h'
    · cases hc : cell.2 with
      | none =>
        rw [hc] at h'
        exact Or.inl h'
      | some v =>
        rw [hc] at h'
        cases hb : b with
        | none =>
          rw [hb] at h'
          dsimp only at h'
          right
          rw [← Option.some.inj h']
          simp
        | some b0 =>
          rw [hb] at h'
          dsimp only at h'
          by_cases hgt : v > b0.2
          · rw [if_pos hgt] at h'
            right
            rw [← Option.some.inj h']
            simp
          · rw [if_neg hgt] at h'
            exact Or.inl h'
    · right
      rw [List.map_cons]
      exact List.mem_cons_of_mem _ h'

/-- C9: the diagnostic similarity matrix and the best-match report are
computed against the registry as it stood before this run's insertions:
every matrix row's column labels are exactly the prior registry's labels
(matching only rewrites entries in place), the rows cover all surviving
profiles whenever the prior registry is nonempty, and every best-match
entry names a prior registry label or none; labels created during the run
(inserted afterwards, source lines 870-882) never appear. -/
theorem C9_diag_before_inserts (cfg : Config) (W : List ℝ) (sr : ℕ)
    (inference : List ℝ → Option Vec) (segments : List RawSeg) (existing0 : Registry)
    (b : OutBundle)
    (h : mainCore cfg W sr inference segments existing0 = some b)
    (hfull : b.errorMsg = none) :
    (∀ row ∈ b.simMatrix, row.2.map Prod.fst = existing0.map Prod.fst) ∧
    (existing0.isEmpty = false →
      b.simMatrix.map Prod.fst =
        (stagedProfiles cfg W sr inference segments).map Prod.fst) ∧
    (∀ r ∈ b.bestReport, r.2.1 = none ∨
      ∃ l, r.2.1 = some l ∧ l ∈ existing0.map Prod.fst) := by
  simp only [mainCore] at h
  by_cases hs : segments.isEmpty = true
  · rw [if_pos hs] at h
    rw [← Option.some.inj h] at hfull
    exact Option.noConfusion hfull
  · rw [if_neg hs] at h
    by_cases hp : (stagedProfiles cfg W sr inference segments).isEmpty = true
    · rw [if_pos hp] at h
      rw [← Option.some.inj h] at hfull
      exact Option.noConfusion hfull
    · rw [if_neg hp] at h
      cases hR : runMatch cfg.autoLower cfg.threshold cfg.autoLowerMin cfg.autoLowerStep
          (stagedProfiles cfg W sr inference segments) ⟨existing0, []⟩ with
      | none =>
        rw [hR] at h
        exact Option.noConfusion h
      | some r =>
        rw [hR] at h
        dsimp only at h
        have hb := Option.some.inj h
        have hkeys : r.1.existing.map Prod.fst = existing0.map Prod.fst :=
          runMatch_keys _ _ _ _ _ _ _ hR
        refine ⟨?_, ?_, ?_⟩
        · intro row hrow
          rw [← hb] at hrow
          dsimp only at hrow
          rw [← hkeys]
          exact buildSimilarityMatrix_row_keys _ _ row hrow
        · intro hne
          rw [← hb]
          dsimp only
          refine buildSimilarityMatrix_keys _ _ ?_
          have h1 : existing0 ≠ [] := by
            intro hx
            rw [hx] at hne
            exact Bool.noConfusion hne
          have h2 : r.1.existing ≠ [] := by
            intro hx
            apply h1
            have := hkeys
            rw [hx] at this
            cases hy : existing0 with
            | nil => rfl
            | cons a as =>
              rw [hy] at this
              exact absurd this.symm (by simp)
          cases hz : r.1.existing with
          | nil => exact absurd hz h2
          | cons a as => rfl
        · intro rep hrep
          rw [← hb] at hrep
          dsimp only at hrep
          unfold bestReportOf at hrep
          rcases List.mem_map.mp hrep with ⟨row, hrow, hre⟩
          cases hbest : bestOfRow row.2 with
          | none =>
            rw [hbest] at hre
            left
            rw [← hre]
          | some gv =>
            rw [hbest] at hre
            right
            refine ⟨gv.1, by rw [← hre], ?_⟩
            have hmem := bestOfRow_mem row.2 none gv hbest
            rcases hmem with h' | h'
            · exact Option.noConfusion h'
            · have hrk : row.2.map Prod.fst = existing0.map Prod.fst := by
                rw [← hkeys]
                exact buildSimilarityMatrix_row_keys _ _ row hrow
              rw [← hrk]
              exact h'

/-- Concrete segment input: speaker `A` with one valid 1-second segment,
speaker `B` with one 0.2-second segment that the 0.3s minimum-duration
guard drops. -/
noncomputable def exSegsAB : List RawSeg :=
  [⟨some ['A'], 0, 1⟩, ⟨some ['B'], 10, 10.2⟩]

/-- The default command-line configuration (no intra-clean, no merger, no
auto-lowering). -/
noncomputable def exCfg : Config := ⟨0.75, false, 0.6, 0.05, 0, false, 0.25, 3, 2, 0.3, 0.002⟩

theorem exGroupAB : groupSegments exSegsAB =
    [(['A'], [(0, 1)]), (['B'], [(10, 10.2)])] := by
  norm_num [groupSegments, exSegsAB, pushSeg]
  decide

theorem exExtractA : extractEmbeddings [1] 1 exInfU 0.3 0.002 [(0, 1)] =
    (some [1, 0], 1, [⟨[1, 0], [1, 0], 1⟩]) := by
  have hfloor : (⌊(0.3 : ℝ)⌋ : ℤ) = 0 := by
    rw [Int.floor_eq_iff]
    norm_num
  norm_num [extractEmbeddings, extractFold, extractStep, segContrib, segChunk, pySlice,
    pyInt, rmsOf, exInfU, Real.sqrt_one, hfloor, vscale, vdiv, normalizeV, vnorm, normSq]

theorem exExtractB : extractEmbeddings [1] 1 exInfU 0.3 0.002 [(10, 10.2)] =
    (none, 0, []) := by
  norm_num [extractEmbeddings, extractFold, extractStep, segContrib]

theorem exStagedAB : stagedProfiles exCfg [1] 1 exInfU exSegsAB =
    [(['A'], ⟨some [1, 0], 1, [⟨[1, 0], [1, 0], 1⟩]⟩)] := by
  have hbuild : buildProfiles [1] 1 exInfU 0.3 0.002 (groupSegments exSegsAB) =
      [(['A'], ⟨some [1, 0], 1, [⟨[1, 0], [1, 0], 1⟩]⟩)] := by
    rw [exGroupAB]
    simp only [buildProfiles, List.filterMap_cons, exExtractA, exExtractB,
      List.filterMap_nil]
  simp only [stagedProfiles, exCfg, hbuild, intraCleanAll, localMerge]
  norm_num

theorem exRunEmpty : runMatch false 0.75 0.6 0.05
    [(['A'], ⟨some [1, 0], 1, [⟨[1, 0], [1, 0], 1⟩]⟩)] ⟨[], []⟩ =
    some (⟨[], []⟩, 0.75) := by
  norm_num [runMatch, attemptMerge, processProfile, alookup]

theorem exCreateNew : createNew [(['A'], ⟨some [1, 0], 1, [⟨[1, 0], [1, 0], 1⟩]⟩)]
    ⟨[], []⟩ (-1) = (⟨[(mkLabel 0, ⟨[1, 0], 1⟩)], [(['A'], mkLabel 0)]⟩, 0) := by
  norm_num [createNew, createNewStep, alookup]

theorem exMainEmptyReg : mainCore exCfg [1] 1 exInfU exSegsAB [] =
    some ⟨sortByLabel [(mkLabel 0, ⟨[1, 0], 1⟩)], [(['A'], mkLabel 0)], 0.75,
      [], [], [], none⟩ := by
  simp only [mainCore]
  rw [if_neg (by norm_num [exSegsAB])]
  rw [exStagedAB]
  rw [if_neg (by norm_num)]
  have hcfg1 : exCfg.autoLower = false := rfl
  have hcfg2 : exCfg.threshold = 0.75 := rfl
  have hcfg3 : exCfg.autoLowerMin = 0.6 := rfl
  have hcfg4 : exCfg.autoLowerStep = 0.05 := rfl
  rw [hcfg1, hcfg2, hcfg3, hcfg4, exRunEmpty]
  have hmax : maxIndexOf [] = -1 := rfl
  dsimp only
  rw [hmax, exCreateNew]
  simp [buildSimilarityMatrix, bestReportOf, invalidOf]

/-- C8 evidence (code bug): in a successful run, local label `B` is grouped
with segments but dropped for having no valid centroid (all its segments
fail the minimum-duration guard), yet the output's `invalid_file_speakers`
is empty: the comprehension at source line 889 ranges over `new_profiles`,
which already excludes every dropped label (its `is None` test is
unsatisfiable), so the drop goes unrecorded, contrary to the claim and the
source's own comment at line 888. -/
theorem C8_dropped_label_unrecorded :
    ∃ b, mainCore exCfg [1] 1 exInfU exSegsAB [] = some b ∧
      b.errorMsg = none ∧
      b.invalidFileSpeakers = [] ∧
      (groupSegments exSegsAB).map Prod.fst = [['A'], ['B']] ∧
      b.mapping.map Prod.fst = [['A']] := by
  refine ⟨_, exMainEmptyReg, rfl, rfl, ?_, rfl⟩
  rw [exGroupAB]
  rfl

/-- Witness for C9: a run over the one-entry prior registry `SPK00`; the
profile matches it, and the diagnostics columns and best-match labels all
come from the prior registry. -/
theorem C9_witness :
    ∃ b, mainCore exCfg [1] 1 exInfU exSegsAB
        [(['S','P','K','0','0'], ⟨[1, 0], 1⟩)] = some b ∧
      (∀ row ∈ b.simMatrix, row.2.map Prod.fst = [['S','P','K','0','0']]) ∧
      (∀ r ∈ b.bestReport, r.2.1 = none ∨
        ∃ l, r.2.1 = some l ∧ l ∈ [['S','P','K','0','0']]) := by
  have hbest : matchExisting [1, 0] [(['S','P','K','0','0'], ⟨[1, 0], 1⟩)] =
      (some ['S','P','K','0','0'], 1) := by
    norm_num [matchExisting, meStep, dot]
  obtain ⟨st1, hA, _⟩ := attemptMerge_single_success 0.75
    ⟨[(['S','P','K','0','0'], ⟨[1, 0], 1⟩)], []⟩ ['A']
    ⟨some [1, 0], 1, [⟨[1, 0], [1, 0], 1⟩]⟩ [1, 0] rfl rfl rfl
    (by rw [hbest]; norm_num) (by rw [hbest]; norm_num)
  have hrun : runMatch false 0.75 0.6 0.05
      [(['A'], ⟨some [1, 0], 1, [⟨[1, 0], [1, 0], 1⟩]⟩)]
      ⟨[(['S','P','K','0','0'], ⟨[1, 0], 1⟩)], []⟩ = some (st1, 0.75) := by
    simp only [runMatch, hA]
    rw [if_neg (by simp)]
  have hmain : mainCore exCfg [1] 1 exInfU exSegsAB
      [(['S','P','K','0','0'], ⟨[1, 0], 1⟩)] = some
      ⟨sortByLabel (createNew [(['A'], ⟨some [1, 0], 1, [⟨[1, 0], [1, 0], 1⟩]⟩)] st1
          (maxIndexOf [(['S','P','K','0','0'], ⟨[1, 0], 1⟩)])).1.existing,
        (createNew [(['A'], ⟨some [1, 0], 1, [⟨[1, 0], [1, 0], 1⟩]⟩)] st1
          (maxIndexOf [(['S','P','K','0','0'], ⟨[1, 0], 1⟩)])).1.mapping, 0.75,
        buildSimilarityMatrix [(['A'], ⟨some [1, 0], 1, [⟨[1, 0], [1, 0], 1⟩]⟩)]
          st1.existing,
        bestReportOf (buildSimilarityMatrix
          [(['A'], ⟨some [1, 0], 1, [⟨[1, 0], [1, 0], 1⟩]⟩)] st1.existing),
        invalidOf [(['A'], ⟨some [1, 0], 1, [⟨[1, 0], [1, 0], 1⟩]⟩)], none⟩ := by
    simp only [mainCore]
    rw [if_neg (by norm_num [exSegsAB])]
    rw [exStagedAB]
    rw [if_neg (by norm_num)]
    have hcfg1 : exCfg.autoLower = false := rfl
    have hcfg2 : exCfg.threshold = 0.75 := rfl
    have hcfg3 : exCfg.autoLowerMin = 0.6 := rfl
    have hcfg4 : exCfg.autoLowerStep = 0.05 := rfl
    rw [hcfg1, hcfg2, hcfg3, hcfg4, hrun]
  refine ⟨_, hmain, ?_, ?_⟩
  · intro row hrow
    have hr := (C9_diag_before_inserts exCfg [1] 1 exInfU exSegsAB
      [(['S','P','K','0','0'], ⟨[1, 0], 1⟩)] _ hmain rfl).1 row hrow
    simpa using hr
  · intro r hrep
    rcases (C9_diag_before_inserts exCfg [1] 1 exInfU exSegsAB
      [(['S','P','K','0','0'], ⟨[1, 0], 1⟩)] _ hmain rfl).2.2 r hrep with h | ⟨l, hl, hm⟩
    · exact Or.inl h
    · exact Or.inr ⟨l, hl, by simpa using hm⟩
